import Mathlib

/-!
# The `sequence` container of `Sequence.cpp`

A shallow embedding of the dynamic-array sequence class (namespace
`CS3358_SP2025`) and proofs of its contract.

Modelling conventions.

* `value_type` and `size_type` are declared in `Sequence.h`, which is not part
  of the sources at hand.  `value_type` is a type parameter `α`; `size_type`
  is the type of non-negative integers, `Nat`.
* The dynamic array `data` is a function `Nat → α` together with the number of
  allocated cells; every subscript is checked against that number
  (`rd`, `wr`), and a subscript outside the array is the fault `outOfBounds`.
* `new value_type[n]` yields cells of indeterminate value; they are modelled
  by `default`.  No theorem below depends on that value.
* `int(1.5 * capacity) + 1` is computed in `int`; `INT_MAX` is `2^31 - 1`.
  A value that does not fit is the fault `intOverflow`.
* `assert(is_item())` failing is the fault `assertion`.
* Where two objects matter (copy construction, assignment), the arrays lie in
  a free store `Store`, by address, and an `object` holds the pointer `data`
  next to its counters.  A member function called on an object computes the
  cells that the function on states computes; it assigns through the object's
  own `data`, or, where the source calls `resize`, into a newly allocated
  array, the old one being deleted.
-/

namespace CS3358_SP2025

/-- Ways in which an execution leaves the defined behaviour of the program. -/
inductive Fault where
  | assertion
  | intOverflow
  | outOfBounds
  deriving DecidableEq, Repr

/-- The member variables of `sequence`: the dynamic array `data`, the number
of items `used`, the cursor `current_index` and the array size `capacity`. -/
structure sequence (α : Type) where
  data : Nat → α
  used : Nat
  current_index : Nat
  capacity : Nat

/-- Largest value of the C++ type `int` (32 bits). -/
def INT_MAX : Nat := 2147483647

/-- Read `a[i]` in an array of `size` cells. -/
def rd {α : Type} (size : Nat) (a : Nat → α) (i : Nat) : Except Fault α :=
  if i < size then .ok (a i) else .error .outOfBounds

/-- Execute `a[i] = v` in an array of `size` cells. -/
def wr {α : Type} (size : Nat) (a : Nat → α) (i : Nat) (v : α) :
    Except Fault (Nat → α) :=
  if i < size then .ok (Function.update a i v) else .error .outOfBounds

/-- The expression `int(1.5 * capacity) + 1` of `insert` and `attach`.
`1.5 * capacity` is exact in `double` on the whole range in which its
truncation `3 * capacity / 2` fits in `int`; outside that range the conversion
to `int`, and at `INT_MAX` the addition of one, is undefined. -/
def grow_request (capacity : Nat) : Except Fault Nat :=
  if 3 * capacity / 2 ≤ INT_MAX then
    if 3 * capacity / 2 + 1 ≤ INT_MAX then .ok (3 * capacity / 2 + 1)
    else .error .intOverflow
  else .error .intOverflow

/-- The loop `for (size_type i = i0; i < used; ++i) dst[i] = src[i];` of
`resize`, the copy constructor and `operator=`; the first argument counts the
iterations that remain (`used - i`). -/
def copy_loop {α : Type} (src_size dst_size : Nat) (src : Nat → α) :
    Nat → Nat → (Nat → α) → Except Fault (Nat → α)
  | 0, _, dst => .ok dst
  | n + 1, i, dst => do
    let v ← rd src_size src i
    let dst' ← wr dst_size dst i v
    copy_loop src_size dst_size src n (i + 1) dst'

/-- The loop `for (size_type i = used; i > current_index; --i)
data[i] = data[i - 1];` of `insert` and `attach`, by recursion on `i`. -/
def shift_right {α : Type} (capacity current_index : Nat) :
    Nat → (Nat → α) → Except Fault (Nat → α)
  | 0, data => .ok data
  | i + 1, data =>
    if i + 1 > current_index then do
      let v ← rd capacity data i
      let data' ← wr capacity data (i + 1) v
      shift_right capacity current_index i data'
    else .ok data

/-- The loop `for (size_type i = current_index; i < used - 1; ++i)
data[i] = data[i + 1];` of `remove_current`; the first argument counts the
iterations that remain (`used - 1 - i`). -/
def shift_left {α : Type} (capacity : Nat) :
    Nat → Nat → (Nat → α) → Except Fault (Nat → α)
  | 0, _, data => .ok data
  | n + 1, i, data => do
    let v ← rd capacity data (i + 1)
    let data' ← wr capacity data i v
    shift_left capacity n (i + 1) data'

namespace sequence

variable {α : Type}

/-- The constructor `sequence::sequence(size_type initial_capacity)`. -/
def construct [Inhabited α] (initial_capacity : Nat) : sequence α :=
  { capacity := initial_capacity
    used := 0
    data := fun _ => default
    current_index := 0 }

/-- The copy constructor `sequence::sequence(const sequence& source)`. -/
def copy_construct [Inhabited α] (source : sequence α) :
    Except Fault (sequence α) := do
  let data ← copy_loop source.capacity source.capacity source.data
    source.used 0 (fun _ => default)
  pure { capacity := source.capacity
         used := source.used
         current_index := source.current_index
         data := data }

/-- The member function `sequence::resize(size_type new_capacity)`. -/
def resize [Inhabited α] (s : sequence α) (new_capacity : Nat) :
    Except Fault (sequence α) := do
  let new_capacity := if new_capacity < s.used then s.used else new_capacity
  let new_data ← copy_loop s.capacity new_capacity s.data s.used 0
    (fun _ => default)
  pure { s with data := new_data, capacity := new_capacity }

/-- The member function `sequence::start()`. -/
def start (s : sequence α) : sequence α :=
  { s with current_index := 0 }

/-- The member function `sequence::is_item()`. -/
def is_item (s : sequence α) : Bool :=
  decide (s.current_index < s.used)

/-- The member function `sequence::advance()`. -/
def advance (s : sequence α) : sequence α :=
  if s.is_item then { s with current_index := s.current_index + 1 } else s

/-- The member function `sequence::size()`. -/
def size (s : sequence α) : Nat :=
  s.used

/-- The member function `sequence::current()`. -/
def current (s : sequence α) : Except Fault α :=
  if s.is_item then rd s.capacity s.data s.current_index
  else .error .assertion

/-- The member function `sequence::insert(const value_type& entry)`. -/
def insert [Inhabited α] (s : sequence α) (entry : α) :
    Except Fault (sequence α) := do
  let s ← (if s.used ≥ s.capacity then
      (do let n ← grow_request s.capacity; s.resize n)
    else pure s)
  let s := if !s.is_item then { s with current_index := 0 } else s
  let data ← shift_right s.capacity s.current_index s.used s.data
  let data ← wr s.capacity data s.current_index entry
  pure { s with data := data, used := s.used + 1 }

/-- The member function `sequence::attach(const value_type& entry)`. -/
def attach [Inhabited α] (s : sequence α) (entry : α) :
    Except Fault (sequence α) := do
  let s ← (if s.used ≥ s.capacity then
      (do let n ← grow_request s.capacity; s.resize n)
    else pure s)
  let s := if !s.is_item then { s with current_index := s.used }
    else { s with current_index := s.current_index + 1 }
  let data ← shift_right s.capacity s.current_index s.used s.data
  let data ← wr s.capacity data s.current_index entry
  pure { s with data := data, used := s.used + 1 }

/-- The member function `sequence::remove_current()`.  `used - 1` is only
evaluated when `is_item()` holds, hence with `used ≥ 1`. -/
def remove_current (s : sequence α) : Except Fault (sequence α) :=
  if !s.is_item then pure s
  else do
    let data ← shift_left s.capacity (s.used - 1 - s.current_index)
      s.current_index s.data
    let used := s.used - 1
    let current_index := if s.current_index ≥ used then used else s.current_index
    pure { s with data := data, used := used, current_index := current_index }

/-- The assignment `sequence::operator=(const sequence& source)` executed on
the object `this`; `same_object` is the outcome of the test `this == &source`,
in which case `source` is `this` itself. -/
def assign [Inhabited α] (this source : sequence α) (same_object : Bool) :
    Except Fault (sequence α) :=
  if same_object then pure this
  else do
    let new_data ← copy_loop source.capacity source.capacity source.data
      source.used 0 (fun _ => default)
    pure { data := new_data
           capacity := source.capacity
           used := source.used
           current_index := source.current_index }

/-- The items of the sequence in order: `data[0]` through `data[used - 1]`. -/
def contents (s : sequence α) : List α :=
  (List.range s.used).map s.data

/-- The representation invariant `used ≤ capacity` and
`current_index ≤ used`. -/
def Inv (s : sequence α) : Prop :=
  s.used ≤ s.capacity ∧ s.current_index ≤ s.used

/-- The states a program can bring a `sequence` object into: those produced by
the constructor and closed under every member function that completes. -/
inductive Reachable [Inhabited α] : sequence α → Prop
  | construct (n : Nat) : Reachable (construct n)
  | copy_construct {s t : sequence α} :
      Reachable s → copy_construct s = .ok t → Reachable t
  | assign {s t u : sequence α} {b : Bool} :
      Reachable t → Reachable s → assign t s b = .ok u → Reachable u
  | resize {s t : sequence α} {n : Nat} :
      Reachable s → resize s n = .ok t → Reachable t
  | start {s : sequence α} : Reachable s → Reachable (start s)
  | advance {s : sequence α} : Reachable s → Reachable (advance s)
  | insert {s t : sequence α} {x : α} :
      Reachable s → insert s x = .ok t → Reachable t
  | attach {s t : sequence α} {x : α} :
      Reachable s → attach s x = .ok t → Reachable t
  | remove_current {s t : sequence α} :
      Reachable s → remove_current s = .ok t → Reachable t

/-- Calling `attach` on the elements of a list, in order. -/
def attach_all [Inhabited α] : sequence α → List α → Except Fault (sequence α)
  | s, [] => .ok s
  | s, x :: xs => do
    let s' ← attach s x
    attach_all s' xs

/-- The client loop `for (s.start(); s.is_item(); s.advance())
visit(s.current());` run from the state reached by `start`: the items visited,
in order, and the final state.  The first argument bounds the number of
evaluations of the loop test; `none` means that the bound was reached. -/
def traverse_loop :
    Nat → sequence α → Option (Except Fault (List α × sequence α))
  | 0, _ => none
  | fuel + 1, s =>
    if s.is_item then
      match current s with
      | .error e => some (.error e)
      | .ok v =>
        match traverse_loop fuel (advance s) with
        | none => none
        | some (.error e) => some (.error e)
        | some (.ok (vs, t)) => some (.ok (v :: vs, t))
    else some (.ok ([], s))

/-- The free store: the arrays made by `new value_type[n]` and not yet
released by `delete[]`, by address; `next` is the first address that `new`
has not handed out yet. -/
structure Store (α : Type) where
  arrays : Nat → Option (Nat → α)
  next : Nat

/-- A `sequence` object as it lies in memory: the pointer `data` and the
members `used`, `current_index` and `capacity`. -/
structure object where
  data : Nat
  used : Nat
  current_index : Nat
  capacity : Nat

/-- The effect of `new value_type[n]` followed by filling the array: a new
address, and the store in which it holds `cells`. -/
def Store.alloc (st : Store α) (cells : Nat → α) : Nat × Store α :=
  (st.next,
    { arrays := Function.update st.arrays st.next (some cells)
      next := st.next + 1 })

/-- The effect of `delete[] p`. -/
def Store.free (st : Store α) (p : Nat) : Store α :=
  { st with arrays := Function.update st.arrays p none }

/-- The effect of assignments `p[i] = v` that leave the array at `p` with the
cells `cells`. -/
def Store.write (st : Store α) (p : Nat) (cells : Nat → α) : Store α :=
  { st with arrays := Function.update st.arrays p (some cells) }

/-- The state of an object: its members, with the array its pointer refers
to; `none` when the pointer refers to no array of the store. -/
def object.view (st : Store α) (o : object) : Option (sequence α) :=
  (st.arrays o.data).map fun cells =>
    { data := cells
      used := o.used
      current_index := o.current_index
      capacity := o.capacity }

/-- The object whose pointer is `p` and whose other members are those of `s`. -/
def object.of (p : Nat) (s : sequence α) : object :=
  { data := p
    used := s.used
    current_index := s.current_index
    capacity := s.capacity }

/-- The mutating member functions, with their arguments. -/
inductive Op (α : Type) where
  | start
  | advance
  | insert (entry : α)
  | attach (entry : α)
  | remove_current
  | resize (new_capacity : Nat)

/-- The member function an `Op` stands for. -/
def Op.run [Inhabited α] : Op α → sequence α → Except Fault (sequence α)
  | .start, s => .ok s.start
  | .advance, s => .ok s.advance
  | .insert entry, s => s.insert entry
  | .attach entry, s => s.attach entry
  | .remove_current, s => s.remove_current
  | .resize new_capacity, s => s.resize new_capacity

/-- Whether the member function replaces the array of the object: `resize`
always does (`new_data = new value_type[...]; delete[] data; data = new_data`),
`insert` and `attach` do so through `resize` when `used >= capacity`, the
others assign through `data` only. -/
def Op.reallocates : Op α → sequence α → Bool
  | .resize _, _ => true
  | .insert _, s => decide (s.used ≥ s.capacity)
  | .attach _, s => decide (s.used ≥ s.capacity)
  | _, _ => false

/-- A member function called on the object `o` in the store `st`. -/
def apply_at [Inhabited α] (op : Op α) (st : Store α) (o : object) :
    Except Fault (Store α × object) :=
  match o.view st with
  | none => .error .outOfBounds
  | some s =>
    match op.run s with
    | .error e => .error e
    | .ok s' =>
      if op.reallocates s then
        .ok (((st.alloc s'.data).2).free o.data,
          object.of (st.alloc s'.data).1 s')
      else .ok (st.write o.data s'.data, object.of o.data s')

/-- Member functions called one after the other on the same object. -/
def apply_all_at [Inhabited α] :
    List (Op α) → Store α → object → Except Fault (Store α × object)
  | [], st, o => .ok (st, o)
  | op :: ops, st, o =>
    match apply_at op st o with
    | .error e => .error e
    | .ok r => apply_all_at ops r.1 r.2

/-- The copy constructor called with `source` in the store `st`: the new
object lives in an array of its own. -/
def copy_construct_at [Inhabited α] (st : Store α) (source : object) :
    Except Fault (Store α × object) :=
  match source.view st with
  | none => .error .outOfBounds
  | some s =>
    match copy_construct s with
    | .error e => .error e
    | .ok s' => .ok ((st.alloc s'.data).2, object.of (st.alloc s'.data).1 s')

/-- The assignment `this = source` between two objects of the store `st`,
`same_object` being the outcome of `this == &source`: the new array is made
before `delete[] data` releases the old one. -/
def assign_at [Inhabited α] (st : Store α) (this source : object)
    (same_object : Bool) : Except Fault (Store α × object) :=
  match this.view st, source.view st with
  | some t, some s =>
    match assign t s same_object with
    | .error e => .error e
    | .ok s' =>
      if same_object then .ok (st, this)
      else
        .ok (((st.alloc s'.data).2).free this.data,
          object.of (st.alloc s'.data).1 s')
  | _, _ => .error .outOfBounds

/-- The state `b` reproduces the state `a`: same capacity, same `used`, same
`current_index` and the same first `used` cells. -/
def agrees (a b : sequence α) : Prop :=
  b.capacity = a.capacity ∧ b.used = a.used ∧
    b.current_index = a.current_index ∧
    ∀ j, j < a.used → b.data j = a.data j

/-- A store that holds `[10, 20, 30]` at address 0 and nothing else. -/
def store_0 : Store Int :=
  { arrays := Function.update (fun _ => none) 0
      (some (fun j => [10, 20, 30].getD j 0))
    next := 1 }

/-- The object at address 0 of `store_0`: `[10, 20, 30]`, cursor on `20`. -/
def object_0 : object :=
  { data := 0
    used := 3
    current_index := 1
    capacity := 4 }

/-- A fresh sequence of capacity 3, without a current item. -/
def seq_empty : sequence Int :=
  construct 3

/-- The sequence `[5]` in an array of one cell, the cursor on `5`. -/
def seq_5 : sequence Int :=
  { data := Function.update (fun _ => default) 0 5
    used := 1
    current_index := 0
    capacity := 1 }

/-- The sequence `[10, 20, 30]` in an array of four cells, the cursor on `20`. -/
def seq_10_20_30 : sequence Int :=
  { data := fun j => [10, 20, 30].getD j 0
    used := 3
    current_index := 1
    capacity := 4 }

/-- The sequence `[10, 20]` in an array of two cells, the cursor on `20`. -/
def seq_10_20 : sequence Int :=
  { data := fun j => [10, 20].getD j 0
    used := 2
    current_index := 1
    capacity := 2 }

end sequence

/-! ## Array accesses and loops -/

section loops

variable {α : Type}

theorem rd_ok {size i : Nat} (a : Nat → α) (h : i < size) :
    rd size a i = .ok (a i) := by
  simp [rd, h]

theorem wr_ok {size i : Nat} (a : Nat → α) (v : α) (h : i < size) :
    wr size a i v = .ok (Function.update a i v) := by
  simp [wr, h]

theorem bind_ok {ε β γ : Type} (b : β) (f : β → Except ε γ) :
    ((Except.ok b : Except ε β) >>= f) = f b := rfl

theorem bind_error {ε β γ : Type} (e : ε) (f : β → Except ε γ) :
    ((Except.error e : Except ε β) >>= f) = Except.error e := rfl

/-- The copy loop, run inside both arrays, overwrites the cells
`i, …, i + n - 1` of the destination with those of the source. -/
theorem copy_loop_ok (src_size dst_size : Nat) (src : Nat → α) :
    ∀ (n i : Nat) (dst : Nat → α), i + n ≤ src_size → i + n ≤ dst_size →
      copy_loop src_size dst_size src n i dst
        = .ok (fun j => if i ≤ j ∧ j < i + n then src j else dst j) := by
  intro n
  induction n with
  | zero =>
    intro i dst _ _
    simp only [copy_loop]
    congr 1
    funext j
    have : ¬ (i ≤ j ∧ j < i + 0) := by omega
    exact (if_neg this).symm
  | succ n ih =>
    intro i dst h1 h2
    simp only [copy_loop]
    rw [rd_ok src (by omega), bind_ok, wr_ok dst _ (by omega), bind_ok,
      ih (i + 1) _ (by omega) (by omega)]
    congr 1
    funext j
    by_cases hj : j = i
    · subst hj
      have h3 : ¬ (j + 1 ≤ j ∧ j < j + 1 + n) := by omega
      have h4 : j ≤ j ∧ j < j + (n + 1) := by omega
      simp [h3, h4]
    · by_cases h5 : i + 1 ≤ j ∧ j < i + 1 + n
      · have h6 : i ≤ j ∧ j < i + (n + 1) := by omega
        simp [h5, h6]
      · have h6 : ¬ (i ≤ j ∧ j < i + (n + 1)) := by omega
        simp [h5, h6, Function.update, hj]

/-- The right shift, when cell `i` exists, moves the cells
`current_index, …, i - 1` one place up. -/
theorem shift_right_ok (capacity current_index : Nat) :
    ∀ (i : Nat) (data : Nat → α), i < capacity →
      shift_right capacity current_index i data
        = .ok (fun j => if current_index < j ∧ j ≤ i then data (j - 1)
            else data j) := by
  intro i
  induction i with
  | zero =>
    intro data _
    simp only [shift_right]
    congr 1
    funext j
    have : ¬ (current_index < j ∧ j ≤ 0) := by omega
    exact (if_neg this).symm
  | succ i ih =>
    intro data h
    simp only [shift_right]
    by_cases hc : i + 1 > current_index
    · rw [if_pos hc, rd_ok data (by omega), bind_ok, wr_ok data _ h, bind_ok,
        ih _ (by omega)]
      congr 1
      funext j
      by_cases hj : j = i + 1
      · subst hj
        have h3 : ¬ (current_index < i + 1 ∧ i + 1 ≤ i) := by omega
        have h4 : current_index < i + 1 ∧ i + 1 ≤ i + 1 := by omega
        simp [h3, h4]
      · by_cases h5 : current_index < j ∧ j ≤ i
        · have h6 : current_index < j ∧ j ≤ i + 1 := by omega
          have h7 : j - 1 ≠ i + 1 := by omega
          simp [h5, h6, Function.update, h7]
        · have h6 : ¬ (current_index < j ∧ j ≤ i + 1) := by omega
          simp [h5, h6, Function.update, hj]
    · rw [if_neg hc]
      congr 1
      funext j
      have : ¬ (current_index < j ∧ j ≤ i + 1) := by omega
      simp [this]

/-- The left shift, when cell `i + n` exists, moves the cells
`i + 1, …, i + n` one place down. -/
theorem shift_left_ok (capacity : Nat) :
    ∀ (n i : Nat) (data : Nat → α), i + n < capacity →
      shift_left capacity n i data
        = .ok (fun j => if i ≤ j ∧ j < i + n then data (j + 1) else data j) := by
  intro n
  induction n with
  | zero =>
    intro i data _
    simp only [shift_left]
    congr 1
    funext j
    have : ¬ (i ≤ j ∧ j < i + 0) := by omega
    exact (if_neg this).symm
  | succ n ih =>
    intro i data h
    simp only [shift_left]
    rw [rd_ok data (by omega), bind_ok, wr_ok data _ (by omega), bind_ok,
      ih (i + 1) _ (by omega)]
    congr 1
    funext j
    by_cases hj : j = i
    · subst hj
      have h3 : ¬ (j + 1 ≤ j ∧ j < j + 1 + n) := by omega
      have h4 : j ≤ j ∧ j < j + (n + 1) := by omega
      simp [h3, h4]
    · by_cases h5 : i + 1 ≤ j ∧ j < i + 1 + n
      · have h6 : i ≤ j ∧ j < i + (n + 1) := by omega
        have h7 : j + 1 ≠ i := by omega
        simp [h5, h6, Function.update, h7]
      · have h6 : ¬ (i ≤ j ∧ j < i + (n + 1)) := by omega
        simp [h5, h6, Function.update, hj]

end loops

namespace sequence

variable {α : Type}

/-! ## The member functions in closed form -/

theorem grow_request_ok {c : Nat} (h : 3 * c / 2 + 1 ≤ INT_MAX) :
    grow_request c = .ok (3 * c / 2 + 1) := by
  have h1 : 3 * c / 2 ≤ INT_MAX := by omega
  simp [grow_request, h, h1]

theorem grow_request_overflow {c : Nat} (h : INT_MAX < 3 * c / 2 + 1) :
    grow_request c = .error .intOverflow := by
  unfold grow_request
  split_ifs <;> first | rfl | omega

theorem resize_ok [Inhabited α] (s : sequence α) (n : Nat)
    (h : s.used ≤ s.capacity) :
    resize s n = .ok
      { s with
        data := fun j => if j < s.used then s.data j else default
        capacity := if n < s.used then s.used else n } := by
  have h2 : 0 + s.used ≤ (if n < s.used then s.used else n) := by
    split_ifs <;> omega
  simp only [resize]
  rw [copy_loop_ok _ _ _ _ _ _ (by omega) h2, bind_ok]
  simp [pure, Except.pure]

/-- The growth step shared by `insert` and `attach`: when the array has room,
or the request fits in `int`, it completes, keeps the items and the cursor and
leaves a free cell. -/
theorem grow_ok [Inhabited α] (s : sequence α) (hinv : s.used ≤ s.capacity)
    (hfit : s.used < s.capacity ∨ 3 * s.capacity / 2 + 1 ≤ INT_MAX) :
    ∃ t : sequence α,
      (if s.used ≥ s.capacity then
          (do let n ← grow_request s.capacity; s.resize n)
        else pure s) = Except.ok t ∧
      t.used = s.used ∧ t.current_index = s.current_index ∧
      s.used < t.capacity ∧
      t.capacity
        = (if s.used ≥ s.capacity then 3 * s.capacity / 2 + 1
            else s.capacity) ∧
      ∀ j, j < s.used → t.data j = s.data j := by
  by_cases hfull : s.used ≥ s.capacity
  · have hf : 3 * s.capacity / 2 + 1 ≤ INT_MAX := by omega
    have hn : ¬ (3 * s.capacity / 2 + 1 < s.used) := by omega
    refine ⟨{ s with
        data := fun j => if j < s.used then s.data j else default
        capacity := 3 * s.capacity / 2 + 1 }, ?_, rfl, rfl, ?_, ?_, ?_⟩
    · rw [if_pos hfull, grow_request_ok hf, bind_ok, resize_ok s _ hinv,
        if_neg hn]
    · show s.used < 3 * s.capacity / 2 + 1
      omega
    · rw [if_pos hfull]
    · intro j hj
      show (if j < s.used then s.data j else default) = s.data j
      rw [if_pos hj]
  · refine ⟨s, ?_, rfl, rfl, by omega, ?_, fun _ _ => rfl⟩
    · rw [if_neg hfull]
      rfl
    · rw [if_neg hfull]

/-- When the array is full and the request does not fit in `int`, the growth
step has no defined result. -/
theorem grow_overflow [Inhabited α] (s : sequence α)
    (hfull : s.used ≥ s.capacity) (h : INT_MAX < 3 * s.capacity / 2 + 1) :
    (if s.used ≥ s.capacity then
        (do let n ← grow_request s.capacity; s.resize n)
      else pure s) = Except.error Fault.intOverflow := by
  rw [if_pos hfull, grow_request_overflow h, bind_error]

/-- What `insert` does, cell by cell. -/
theorem insert_spec [Inhabited α] (s : sequence α) (x : α) (hinv : Inv s)
    (hfit : s.used < s.capacity ∨ 3 * s.capacity / 2 + 1 ≤ INT_MAX) :
    ∃ t : sequence α, insert s x = .ok t ∧
      t.used = s.used + 1 ∧
      t.current_index = (if s.is_item then s.current_index else 0) ∧
      t.capacity
        = (if s.used ≥ s.capacity then 3 * s.capacity / 2 + 1
            else s.capacity) ∧
      (∀ j, j < t.current_index → t.data j = s.data j) ∧
      t.data t.current_index = x ∧
      (∀ j, t.current_index < j → j ≤ s.used → t.data j = s.data (j - 1)) := by
  obtain ⟨g, hg, hu, hci, hcap, hcap2, hdata⟩ := grow_ok s hinv.1 hfit
  have hitem : g.is_item = s.is_item := by simp [is_item, hu, hci]
  simp only [insert]
  rw [hg, bind_ok]
  by_cases hit : s.is_item = true
  · have hlt : s.current_index < s.used := by simpa [is_item] using hit
    simp only [hitem, hit, Bool.not_true, Bool.false_eq_true, if_false, if_true]
    rw [shift_right_ok _ _ _ _ (by omega), bind_ok, wr_ok _ _ (by omega),
      bind_ok]
    refine ⟨_, rfl, by simp [hu], by simp [hci], by simp [hcap2], ?_, ?_, ?_⟩
    · intro j hj
      have hj2 : j < s.current_index := by simpa [hci] using hj
      have h1 : j ≠ g.current_index := by omega
      have h2 : ¬ (g.current_index < j ∧ j ≤ g.used) := by omega
      simp [Function.update, h1, h2]
      exact hdata j (by omega)
    · simp
    · intro j hj hj2
      have hj3 : s.current_index < j := by simpa [hci] using hj
      have h1 : j ≠ g.current_index := by omega
      have h2 : g.current_index < j ∧ j ≤ g.used := by omega
      simp [Function.update, h1, h2]
      exact hdata (j - 1) (by omega)
  · have hit2 : s.is_item = false := by simpa using hit
    simp only [hitem, hit2, Bool.not_false, if_true, Bool.false_eq_true,
      if_false]
    rw [shift_right_ok _ _ _ _ (by simpa using (by omega : g.used < g.capacity)),
      bind_ok, wr_ok _ _ (by simpa using (by omega : 0 < g.capacity)),
      bind_ok]
    refine ⟨_, rfl, by simp [hu], by simp, by simp [hcap2], ?_, ?_, ?_⟩
    · intro j hj
      simp at hj
    · simp
    · intro j hj hj2
      have hj3 : 0 < j := by simpa using hj
      have h1 : j ≠ 0 := by omega
      have h2 : 0 < j ∧ j ≤ g.used := by omega
      simp [Function.update, h1, h2]
      exact hdata (j - 1) (by omega)

/-- What `attach` does, cell by cell. -/
theorem attach_spec [Inhabited α] (s : sequence α) (x : α) (hinv : Inv s)
    (hfit : s.used < s.capacity ∨ 3 * s.capacity / 2 + 1 ≤ INT_MAX) :
    ∃ t : sequence α, attach s x = .ok t ∧
      t.used = s.used + 1 ∧
      t.current_index
        = (if s.is_item then s.current_index + 1 else s.used) ∧
      t.capacity
        = (if s.used ≥ s.capacity then 3 * s.capacity / 2 + 1
            else s.capacity) ∧
      (∀ j, j < t.current_index → t.data j = s.data j) ∧
      t.data t.current_index = x ∧
      (∀ j, t.current_index < j → j ≤ s.used → t.data j = s.data (j - 1)) := by
  obtain ⟨g, hg, hu, hci, hcap, hcap2, hdata⟩ := grow_ok s hinv.1 hfit
  have hitem : g.is_item = s.is_item := by simp [is_item, hu, hci]
  simp only [attach]
  rw [hg, bind_ok]
  by_cases hit : s.is_item = true
  · have hlt : s.current_index < s.used := by simpa [is_item] using hit
    simp only [hitem, hit, Bool.not_true, Bool.false_eq_true, if_false, if_true]
    rw [shift_right_ok _ _ _ _ (by simpa using (by omega : g.used < g.capacity)),
      bind_ok,
      wr_ok _ _ (by simpa using (by omega : g.current_index + 1 < g.capacity)),
      bind_ok]
    refine ⟨_, rfl, by simp [hu], by simp [hci], by simp [hcap2], ?_, ?_, ?_⟩
    · intro j hj
      have hj2 : j < s.current_index + 1 := by simpa [hci] using hj
      have h1 : j ≠ g.current_index + 1 := by omega
      have h2 : ¬ (g.current_index + 1 < j ∧ j ≤ g.used) := by omega
      simp [Function.update, h1, h2]
      exact hdata j (by omega)
    · simp
    · intro j hj hj2
      have hj3 : s.current_index + 1 < j := by simpa [hci] using hj
      have h1 : j ≠ g.current_index + 1 := by omega
      have h2 : g.current_index + 1 < j ∧ j ≤ g.used := by omega
      simp [Function.update, h1, h2]
      exact hdata (j - 1) (by omega)
  · have hit2 : s.is_item = false := by simpa using hit
    simp only [hitem, hit2, Bool.not_false, if_true, Bool.false_eq_true,
      if_false]
    rw [shift_right_ok _ _ _ _ (by simpa using (by omega : g.used < g.capacity)),
      bind_ok, wr_ok _ _ (by simpa using (by omega : g.used < g.capacity)),
      bind_ok]
    refine ⟨_, rfl, by simp [hu], by simp [hu], by simp [hcap2], ?_, ?_, ?_⟩
    · intro j hj
      have hj2 : j < s.used := by simpa [hu] using hj
      have h1 : j ≠ g.used := by omega
      have h2 : ¬ (g.used < j ∧ j ≤ g.used) := by omega
      simp [Function.update, h1, h2]
      exact hdata j hj2
    · simp
    · intro j hj hj2
      have hj3 : s.used < j := by simpa [hu] using hj
      omega

/-- On a full array whose growth request does not fit in `int`, `insert` has
no defined result. -/
theorem insert_overflow [Inhabited α] (s : sequence α) (x : α)
    (hfull : s.used ≥ s.capacity) (h : INT_MAX < 3 * s.capacity / 2 + 1) :
    insert s x = .error .intOverflow := by
  simp only [insert]
  rw [grow_overflow s hfull h, bind_error]

/-- On a full array whose growth request does not fit in `int`, `attach` has
no defined result. -/
theorem attach_overflow [Inhabited α] (s : sequence α) (x : α)
    (hfull : s.used ≥ s.capacity) (h : INT_MAX < 3 * s.capacity / 2 + 1) :
    attach s x = .error .intOverflow := by
  simp only [attach]
  rw [grow_overflow s hfull h, bind_error]

/-- A completed `insert` had room or a growth request that fits in `int`. -/
theorem insert_fit [Inhabited α] {s t : sequence α} {x : α}
    (h : insert s x = .ok t) :
    s.used < s.capacity ∨ 3 * s.capacity / 2 + 1 ≤ INT_MAX := by
  by_contra hc
  rw [insert_overflow s x (by omega) (by omega)] at h
  cases h

/-- A completed `attach` had room or a growth request that fits in `int`. -/
theorem attach_fit [Inhabited α] {s t : sequence α} {x : α}
    (h : attach s x = .ok t) :
    s.used < s.capacity ∨ 3 * s.capacity / 2 + 1 ≤ INT_MAX := by
  by_contra hc
  rw [attach_overflow s x (by omega) (by omega)] at h
  cases h

/-- What `remove_current` does when there is a current item. -/
theorem remove_current_spec (s : sequence α) (hcap : s.used ≤ s.capacity)
    (hit : s.is_item = true) :
    remove_current s = .ok
      { s with
        data := fun j =>
          if s.current_index ≤ j ∧ j < s.used - 1 then s.data (j + 1)
          else s.data j
        used := s.used - 1 } := by
  have hlt : s.current_index < s.used := by simpa [is_item] using hit
  simp only [remove_current, hit, Bool.not_true, Bool.false_eq_true, if_false]
  rw [shift_left_ok _ _ _ _ (by omega), bind_ok]
  have h1 : s.current_index + (s.used - 1 - s.current_index) = s.used - 1 := by
    omega
  by_cases hlast : s.current_index ≥ s.used - 1
  · have h2 : s.used - 1 = s.current_index := by omega
    simp [pure, Except.pure, h1, h2]
  · simp [pure, Except.pure, h1, hlast]

/-- Without a current item `remove_current` returns at once. -/
theorem remove_current_noop (s : sequence α) (hit : s.is_item = false) :
    remove_current s = .ok s := by
  simp [remove_current, hit, pure, Except.pure]

/-! ## The logical contents -/

theorem contents_length (s : sequence α) : (contents s).length = s.used := by
  simp [contents]

theorem contents_getElem? (s : sequence α) (j : Nat) :
    (contents s)[j]? = if j < s.used then some (s.data j) else none := by
  simp only [contents, List.getElem?_map]
  by_cases h : j < s.used
  · rw [List.getElem?_range h, if_pos h]
    rfl
  · rw [List.getElem?_eq_none (by simpa using h), if_neg h]
    rfl

/-- A state whose cells are those of `s` with `x` put in at position `p` holds
the items of `s` with `x` put in at position `p`. -/
theorem contents_put_in (s t : sequence α) (p : Nat) (x : α) (hp : p ≤ s.used)
    (hu : t.used = s.used + 1)
    (h1 : ∀ j, j < p → t.data j = s.data j) (h2 : t.data p = x)
    (h3 : ∀ j, p < j → j ≤ s.used → t.data j = s.data (j - 1)) :
    contents t = (contents s).take p ++ [x] ++ (contents s).drop p := by
  apply List.ext_getElem?
  intro j
  have hlen : ((contents s).take p).length = p := by
    simp [contents_length, hp]
  rw [contents_getElem?, List.append_assoc]
  by_cases hj : j < p
  · rw [List.getElem?_append_left (by omega), List.getElem?_take_of_lt hj,
      contents_getElem?, if_pos (by omega), if_pos (by omega), h1 j hj]
  · rw [List.getElem?_append_right (by omega), hlen]
    by_cases hj2 : j = p
    · subst hj2
      simp [hu, h2]
      omega
    · have h4 : j - p = (j - p - 1) + 1 := by omega
      rw [h4, List.singleton_append, List.getElem?_cons_succ,
        List.getElem?_drop, contents_getElem?]
      have h5 : p + (j - p - 1) = j - 1 := by omega
      rw [h5]
      by_cases hj3 : j < t.used
      · rw [if_pos hj3, if_pos (by omega), h3 j (by omega) (by omega)]
      · rw [if_neg hj3, if_neg (by omega)]

/-- A state whose cells are those of `s` with cell `i` taken out holds the
items of `s` with item `i` taken out. -/
theorem contents_take_out (s t : sequence α) (i : Nat) (hi : i < s.used)
    (hu : t.used = s.used - 1)
    (h1 : ∀ j, j < i → t.data j = s.data j)
    (h2 : ∀ j, i ≤ j → j < s.used - 1 → t.data j = s.data (j + 1)) :
    contents t = (contents s).eraseIdx i := by
  apply List.ext_getElem?
  intro j
  rw [contents_getElem?, List.getElem?_eraseIdx]
  by_cases hj : j < i
  · rw [if_pos hj, contents_getElem?, if_pos (by omega), if_pos (by omega),
      h1 j hj]
  · rw [if_neg hj, contents_getElem?]
    by_cases hj2 : j < t.used
    · rw [if_pos hj2, if_pos (by omega), h2 j (by omega) (by omega)]
    · rw [if_neg hj2, if_neg (by omega)]

/-! ## Preservation of the representation invariant -/

theorem copy_construct_ok [Inhabited α] (s : sequence α)
    (h : s.used ≤ s.capacity) :
    copy_construct s = .ok
      { s with data := fun j => if j < s.used then s.data j else default } := by
  simp only [copy_construct]
  rw [copy_loop_ok _ _ _ _ _ _ (by omega) (by omega), bind_ok]
  simp [pure, Except.pure]

theorem assign_ok [Inhabited α] (this source : sequence α)
    (h : source.used ≤ source.capacity) :
    assign this source false = .ok
      { source with
        data := fun j => if j < source.used then source.data j else default } := by
  simp only [assign, Bool.false_eq_true, if_false]
  rw [copy_loop_ok _ _ _ _ _ _ (by omega) (by omega), bind_ok]
  simp [pure, Except.pure]

theorem inv_construct [Inhabited α] (n : Nat) : Inv (construct n : sequence α) :=
  ⟨Nat.zero_le _, Nat.le_refl _⟩

theorem inv_copy_construct [Inhabited α] {s t : sequence α} (hinv : Inv s)
    (h : copy_construct s = .ok t) : Inv t := by
  rw [copy_construct_ok s hinv.1] at h
  cases h
  exact hinv

theorem inv_assign [Inhabited α] {s t u : sequence α} {b : Bool}
    (ht : Inv t) (hs : Inv s) (h : assign t s b = .ok u) : Inv u := by
  cases b with
  | true =>
    simp only [assign, if_true, pure, Except.pure] at h
    cases h
    exact ht
  | false =>
    rw [assign_ok t s hs.1] at h
    cases h
    exact hs

theorem inv_resize [Inhabited α] {s t : sequence α} {n : Nat} (hinv : Inv s)
    (h : resize s n = .ok t) : Inv t := by
  rw [resize_ok s n hinv.1] at h
  cases h
  refine ⟨?_, hinv.2⟩
  show s.used ≤ (if n < s.used then s.used else n)
  split_ifs <;> omega

theorem inv_start {s : sequence α} (_hinv : Inv s) : Inv (start s) :=
  ⟨_hinv.1, Nat.zero_le _⟩

theorem inv_advance {s : sequence α} (hinv : Inv s) : Inv (advance s) := by
  unfold advance
  by_cases hit : s.is_item = true
  · have hlt : s.current_index < s.used := by simpa [is_item] using hit
    rw [if_pos hit]
    exact ⟨hinv.1, hlt⟩
  · rw [if_neg hit]
    exact hinv

theorem inv_insert [Inhabited α] {s t : sequence α} {x : α} (hinv : Inv s)
    (h : insert s x = .ok t) : Inv t := by
  obtain ⟨u, hu, h1, h2, h3, -⟩ := insert_spec s x hinv (insert_fit h)
  rw [hu] at h
  cases h
  have hi1 : s.used ≤ s.capacity := hinv.1
  have hi2 : s.current_index ≤ s.used := hinv.2
  have hlt : s.is_item = true → s.current_index < s.used := by
    intro hit
    simpa [is_item] using hit
  constructor
  · rw [h1, h3]
    split_ifs <;> omega
  · rw [h1, h2]
    split_ifs with hit
    · have := hlt hit
      omega
    · omega

theorem inv_attach [Inhabited α] {s t : sequence α} {x : α} (hinv : Inv s)
    (h : attach s x = .ok t) : Inv t := by
  obtain ⟨u, hu, h1, h2, h3, -⟩ := attach_spec s x hinv (attach_fit h)
  rw [hu] at h
  cases h
  have hi1 : s.used ≤ s.capacity := hinv.1
  have hi2 : s.current_index ≤ s.used := hinv.2
  have hlt : s.is_item = true → s.current_index < s.used := by
    intro hit
    simpa [is_item] using hit
  constructor
  · rw [h1, h3]
    split_ifs <;> omega
  · rw [h1, h2]
    split_ifs with hit
    · have := hlt hit
      omega
    · omega

theorem inv_remove_current {s t : sequence α} (hinv : Inv s)
    (h : remove_current s = .ok t) : Inv t := by
  by_cases hit : s.is_item = true
  · have hlt : s.current_index < s.used := by simpa [is_item] using hit
    rw [remove_current_spec s hinv.1 hit] at h
    cases h
    have hi1 : s.used ≤ s.capacity := hinv.1
    exact ⟨by show s.used - 1 ≤ s.capacity; omega,
      by show s.current_index ≤ s.used - 1; omega⟩
  · rw [remove_current_noop s (by simpa using hit)] at h
    cases h
    exact hinv

/-! ## Insertion when the growth request fits in `int` -/

/-- Postcondition of `insert` in a state that has a free cell or whose growth
request fits in `int`: the entry is placed at the cursor (at index 0 without
a cursor), the other items keep their order, and the entry is the current
item. -/
theorem insert_post [Inhabited α] (s : sequence α) (x : α) (hinv : Inv s)
    (hfit : s.used < s.capacity ∨ 3 * s.capacity / 2 + 1 ≤ INT_MAX) :
    ∃ t : sequence α, insert s x = .ok t ∧
      contents t
        = (contents s).take (if s.is_item then s.current_index else 0)
          ++ [x]
          ++ (contents s).drop (if s.is_item then s.current_index else 0) ∧
      t.used = s.used + 1 ∧
      t.current_index = (if s.is_item then s.current_index else 0) ∧
      t.is_item = true ∧ current t = .ok x := by
  obtain ⟨t, ht, h1, h2, h3, h4, h5, h6⟩ := insert_spec s x hinv hfit
  have hi1 : s.used ≤ s.capacity := hinv.1
  have hi2 : s.current_index ≤ s.used := hinv.2
  have hp : t.current_index ≤ s.used := by
    rw [h2]
    split_ifs <;> omega
  have hcap : s.used < t.capacity := by
    rw [h3]
    split_ifs <;> omega
  have hit : t.is_item = true := by
    simp only [is_item, decide_eq_true_eq]
    omega
  refine ⟨t, ht, ?_, h1, h2, hit, ?_⟩
  · rw [← h2]
    exact contents_put_in s t _ x hp h1 h4 h5 h6
  · simp only [current, hit, if_true]
    rw [rd_ok _ (by omega), h5]

/-- Postcondition of `attach` in a state that has a free cell or whose growth
request fits in `int`: the entry is placed right after the cursor (at the end
without a cursor), the other items keep their order, and the entry is the
current item. -/
theorem attach_post [Inhabited α] (s : sequence α) (x : α) (hinv : Inv s)
    (hfit : s.used < s.capacity ∨ 3 * s.capacity / 2 + 1 ≤ INT_MAX) :
    ∃ t : sequence α, attach s x = .ok t ∧
      contents t
        = (contents s).take (if s.is_item then s.current_index + 1 else s.used)
          ++ [x]
          ++ (contents s).drop
              (if s.is_item then s.current_index + 1 else s.used) ∧
      t.used = s.used + 1 ∧
      t.current_index = (if s.is_item then s.current_index + 1 else s.used) ∧
      t.is_item = true ∧ current t = .ok x := by
  obtain ⟨t, ht, h1, h2, h3, h4, h5, h6⟩ := attach_spec s x hinv hfit
  have hi1 : s.used ≤ s.capacity := hinv.1
  have hi2 : s.current_index ≤ s.used := hinv.2
  have hlt : s.is_item = true → s.current_index < s.used := by
    intro h
    simpa [is_item] using h
  have hp : t.current_index ≤ s.used := by
    rw [h2]
    split_ifs with h
    · have := hlt h
      omega
    · omega
  have hcap : s.used < t.capacity := by
    rw [h3]
    split_ifs <;> omega
  have hit : t.is_item = true := by
    simp only [is_item, decide_eq_true_eq]
    omega
  refine ⟨t, ht, ?_, h1, h2, hit, ?_⟩
  · rw [← h2]
    exact contents_put_in s t _ x hp h1 h4 h5 h6
  · simp only [current, hit, if_true]
    rw [rd_ok _ (by omega), h5]

/-- With a current item inside the array, `current` returns the cell under
the cursor. -/
theorem current_ok (s : sequence α) (hit : s.is_item = true)
    (hcap : s.used ≤ s.capacity) :
    current s = .ok (s.data s.current_index) := by
  have hlt : s.current_index < s.used := by simpa [is_item] using hit
  simp only [current, hit, if_true]
  rw [rd_ok _ (by omega)]

theorem attach_all_append [Inhabited α] (xs : List α) (x : α) :
    ∀ s : sequence α,
      attach_all s (xs ++ [x]) = (attach_all s xs >>= fun t => attach t x) := by
  induction xs with
  | nil =>
    intro s
    simp only [List.nil_append, attach_all, bind_ok]
    cases attach s x <;> rfl
  | cons y ys ih =>
    intro s
    simp only [List.cons_append, attach_all]
    cases attach s y with
    | error e => rfl
    | ok t =>
      rw [bind_ok, bind_ok]
      exact ih t

theorem reachable_attach_all [Inhabited α] (xs : List α) :
    ∀ s t : sequence α, Reachable s → attach_all s xs = .ok t → Reachable t := by
  induction xs with
  | nil =>
    intro s t hs h
    simp only [attach_all] at h
    cases h
    exact hs
  | cons y ys ih =>
    intro s t hs h
    simp only [attach_all] at h
    cases hy : attach s y with
    | error e =>
      rw [hy, bind_error] at h
      cases h
    | ok u =>
      rw [hy, bind_ok] at h
      exact ih u t (Reachable.attach hs hy) h

/-- Attaching the elements of a list one after the other, from a state whose
cursor is on the last item or absent, appends the list, as long as the items
fit in the array at hand or number at most 1431655765, the largest array
that the growth step can still produce. -/
theorem attach_all_post [Inhabited α] (xs : List α) :
    ∀ s : sequence α, Inv s →
      (s.current_index = s.used ∨ s.current_index + 1 = s.used) →
      (s.used + xs.length ≤ s.capacity ∨ s.used + xs.length ≤ 1431655765) →
      ∃ t : sequence α, attach_all s xs = .ok t ∧
        contents t = contents s ++ xs ∧
        t.used = s.used + xs.length ∧
        Inv t ∧
        (xs ≠ [] → t.current_index + 1 = t.used) ∧
        (s.used + xs.length ≤ s.capacity → t.capacity = s.capacity) := by
  induction xs with
  | nil =>
    intro s hinv _ _
    exact ⟨s, rfl, by simp, by simp, hinv, by simp, fun _ => rfl⟩
  | cons x xs ih =>
    intro s hinv hc hb
    have hi1 : s.used ≤ s.capacity := hinv.1
    have hi2 : s.current_index ≤ s.used := hinv.2
    simp only [List.length_cons] at hb
    have hfit : s.used < s.capacity ∨ 3 * s.capacity / 2 + 1 ≤ INT_MAX := by
      unfold INT_MAX
      omega
    obtain ⟨t1, ht1, h1, h2, h3, h4, h5, h6⟩ := attach_spec s x hinv hfit
    have hlt : s.is_item = true → s.current_index < s.used := by
      intro h
      simpa [is_item] using h
    have hp : t1.current_index = s.used := by
      rw [h2]
      split_ifs with h
      · have := hlt h
        omega
      · rfl
    have hinv1 : Inv t1 := inv_attach hinv ht1
    have hcont : contents t1 = contents s ++ [x] := by
      rw [contents_put_in s t1 t1.current_index x (by omega) h1 h4 h5 h6, hp,
        List.take_of_length_le (by rw [contents_length]),
        List.drop_of_length_le (by rw [contents_length]), List.append_nil]
    have hb1 : t1.used + xs.length ≤ t1.capacity ∨
        t1.used + xs.length ≤ 1431655765 := by
      rw [h1, h3]
      split_ifs <;> omega
    obtain ⟨t, ht, hcs, hu, hinvt, hne, hcapt⟩ :=
      ih t1 hinv1 (Or.inr (by omega)) hb1
    refine ⟨t, ?_, ?_, ?_, hinvt, ?_, ?_⟩
    · simp only [attach_all]
      rw [ht1, bind_ok]
      exact ht
    · rw [hcs, hcont]
      simp
    · rw [hu, h1, List.length_cons]
      omega
    · intro _
      by_cases hxs : xs = []
      · subst hxs
        simp only [attach_all] at ht
        cases ht
        omega
      · exact hne hxs
    · intro hle
      simp only [List.length_cons] at hle
      have h7 : ¬ (s.used ≥ s.capacity) := by omega
      rw [hcapt (by rw [h1, h3, if_neg h7]; omega), h3, if_neg h7]

/-- Attach ordering from a fresh sequence of any capacity `n`, for lists that
fit in `n` cells or have at most 1431655765 elements: the contents are the
list, `size` is its length, and the last element is the current item. -/
theorem attach_all_fresh [Inhabited α] (n : Nat) (xs : List α)
    (hb : xs.length ≤ n ∨ xs.length ≤ 1431655765) :
    ∃ t : sequence α, attach_all (construct n) xs = .ok t ∧
      contents t = xs ∧ size t = xs.length ∧
      (xs ≠ [] → t.is_item = true ∧
        ∃ v, xs.getLast? = some v ∧ current t = .ok v) := by
  have hb0 : (construct n : sequence α).used + xs.length
        ≤ (construct n : sequence α).capacity ∨
      (construct n : sequence α).used + xs.length ≤ 1431655765 := by
    simp only [construct]
    omega
  obtain ⟨t, ht, hcs, hu, hinvt, hne, -⟩ :=
    attach_all_post xs (construct n) (inv_construct n) (Or.inl rfl) hb0
  have hcs2 : contents t = xs := by
    rw [hcs]
    simp [contents, construct]
  have hu2 : t.used = xs.length := by
    rw [hu]
    simp [construct]
  refine ⟨t, ht, hcs2, hu2, ?_⟩
  intro hxs
  have h1 := hne hxs
  have hit : t.is_item = true := by
    simp only [is_item, decide_eq_true_eq]
    omega
  refine ⟨hit, t.data t.current_index, ?_, current_ok t hit hinvt.1⟩
  rw [List.getLast?_eq_getElem?, ← hcs2, contents_getElem?, contents_length]
  have h2 : t.used - 1 = t.current_index := by omega
  rw [h2, if_pos (by omega)]

/-- Every reachable state satisfies the invariant. -/
theorem inv_of_reachable [Inhabited α] {s : sequence α} (h : Reachable s) :
    Inv s := by
  induction h with
  | construct n => exact inv_construct n
  | copy_construct _ h ih => exact inv_copy_construct ih h
  | assign _ _ h iht ihs => exact inv_assign iht ihs h
  | resize _ h ih => exact inv_resize ih h
  | start _ ih => exact inv_start ih
  | advance _ ih => exact inv_advance ih
  | insert _ h ih => exact inv_insert ih h
  | attach _ h ih => exact inv_attach ih h
  | remove_current _ h ih => exact inv_remove_current ih h

/-- The state reached by `attach(0)` called 1431655765 times on a fresh
sequence of capacity 1431655765: the array is full. -/
theorem full_state_reached :
    ∃ t : sequence Int,
      attach_all (construct 1431655765) (List.replicate 1431655765 0) = .ok t ∧
      Reachable t ∧ t.used = 1431655765 ∧ t.capacity = 1431655765 := by
  have hb : (construct 1431655765 : sequence Int).used
        + (List.replicate 1431655765 (0 : Int)).length
      ≤ (construct 1431655765 : sequence Int).capacity := by
    rw [List.length_replicate]
    exact Nat.le_of_eq (Nat.zero_add _)
  obtain ⟨t, ht, -, hu, -, -, hcap⟩ :=
    attach_all_post (List.replicate 1431655765 (0 : Int))
      (construct 1431655765) (inv_construct _) (Or.inl rfl) (Or.inl hb)
  refine ⟨t, ht, reachable_attach_all _ _ _ (Reachable.construct _) ht, ?_, ?_⟩
  · rw [hu, List.length_replicate]
    exact Nat.zero_add _
  · rw [hcap hb]
    rfl

/-! ## The contract -/

/-- C1. Representation invariant: the constructor establishes
`used ≤ capacity` and `current_index ≤ used` for every initial capacity, each
of copy construction, assignment, `resize`, `start`, `advance`, `insert`,
`attach` and `remove_current` preserves it, and so it holds in every state
reachable from the constructor. -/
theorem representation_invariant [Inhabited α] :
    (∀ n : Nat, Inv (construct n : sequence α)) ∧
    (∀ s t : sequence α, Inv s → copy_construct s = .ok t → Inv t) ∧
    (∀ (t s u : sequence α) (b : Bool),
      Inv t → Inv s → assign t s b = .ok u → Inv u) ∧
    (∀ (s t : sequence α) (n : Nat), Inv s → resize s n = .ok t → Inv t) ∧
    (∀ s : sequence α, Inv s → Inv (start s)) ∧
    (∀ s : sequence α, Inv s → Inv (advance s)) ∧
    (∀ (s t : sequence α) (x : α), Inv s → insert s x = .ok t → Inv t) ∧
    (∀ (s t : sequence α) (x : α), Inv s → attach s x = .ok t → Inv t) ∧
    (∀ s t : sequence α, Inv s → remove_current s = .ok t → Inv t) ∧
    (∀ s : sequence α, Reachable s →
      s.used ≤ s.capacity ∧ s.current_index ≤ s.used) :=
  ⟨inv_construct,
    fun _ _ hs h => inv_copy_construct hs h,
    fun _ _ _ _ ht hs h => inv_assign ht hs h,
    fun _ _ _ hs h => inv_resize hs h,
    fun _ hs => inv_start hs,
    fun _ hs => inv_advance hs,
    fun _ _ _ hs h => inv_insert hs h,
    fun _ _ _ hs h => inv_attach hs h,
    fun _ _ hs h => inv_remove_current hs h,
    fun _ h => inv_of_reachable h⟩

/-- The state `[5]` is reached by `insert(5)` on a fresh sequence of capacity
zero, and satisfies the invariant. -/
theorem representation_invariant_witness :
    Reachable seq_5 ∧
      (seq_5.used ≤ seq_5.capacity ∧ seq_5.current_index ≤ seq_5.used) :=
  have h : Reachable seq_5 :=
    Reachable.insert (Reachable.construct 0)
      (rfl : insert (construct 0 : sequence Int) 5 = .ok seq_5)
  ⟨h, representation_invariant.2.2.2.2.2.2.2.2.2 seq_5 h⟩

/-- C2, on the full array of 1431655765 items: the growth request of `insert`,
`int(1.5 * capacity) + 1`, is `INT_MAX + 1`, and `insert` has no defined
result, so the entry is not placed. -/
theorem insert_on_full_large_array :
    ∃ t : sequence Int,
      attach_all (construct 1431655765) (List.replicate 1431655765 0) = .ok t ∧
      Reachable t ∧ insert t 7 = .error .intOverflow := by
  obtain ⟨t, ht, hr, hu, hcap⟩ := full_state_reached
  refine ⟨t, ht, hr, insert_overflow t 7 ?_ ?_⟩
  · rw [hu, hcap]
  · rw [hcap]
    decide

/-- C3, on the full array of 1431655765 items: no state results from
`insert(7)` in which `7` is the current item. -/
theorem insert_then_current_on_full_large_array :
    ∃ t : sequence Int,
      attach_all (construct 1431655765) (List.replicate 1431655765 0) = .ok t ∧
      Reachable t ∧
      ¬ ∃ u : sequence Int,
        insert t 7 = .ok u ∧ u.is_item = true ∧ current u = .ok 7 := by
  obtain ⟨t, ht, hr, hu, hcap⟩ := full_state_reached
  refine ⟨t, ht, hr, ?_⟩
  rintro ⟨u, h, -⟩
  have hfit := insert_fit h
  rw [hu, hcap] at hfit
  revert hfit
  decide

/-- C4, on the full array of 1431655765 items: the growth request of `attach`
is `INT_MAX + 1`, and `attach` has no defined result. -/
theorem attach_on_full_large_array :
    ∃ t : sequence Int,
      attach_all (construct 1431655765) (List.replicate 1431655765 0) = .ok t ∧
      Reachable t ∧ attach t 7 = .error .intOverflow := by
  obtain ⟨t, ht, hr, hu, hcap⟩ := full_state_reached
  refine ⟨t, ht, hr, attach_overflow t 7 ?_ ?_⟩
  · rw [hu, hcap]
  · rw [hcap]
    decide

/-- C5, on a list of 1431655766 elements and a fresh sequence of capacity
1431655765: the last `attach` finds the array full and its growth request
does not fit in `int`. -/
theorem attach_all_large_list :
    attach_all (construct 1431655765 : sequence Int)
        (List.replicate 1431655766 0)
      = .error .intOverflow := by
  obtain ⟨t, ht, -, hu, hcap⟩ := full_state_reached
  have h1 : List.replicate 1431655766 (0 : Int)
      = List.replicate 1431655765 0 ++ [0] :=
    List.replicate_succ' (n := 1431655765) (a := (0 : Int))
  rw [h1, attach_all_append, ht, bind_ok]
  apply attach_overflow
  · rw [hu, hcap]
  · rw [hcap]
    decide

/-- C6. Postcondition of `remove_current` on a state with a current item at
index `i`: the contents lose exactly the item at index `i`, `used` drops by
one; if `i` was not the last index the cursor stays at `i` and the current
item is the former successor; if `i` was the last index there is no current
item and `current_index` equals the new `used`. -/
theorem remove_current_post (s : sequence α) (hinv : Inv s)
    (hit : s.is_item = true) :
    ∃ t : sequence α, remove_current s = .ok t ∧
      contents t = (contents s).eraseIdx s.current_index ∧
      t.used + 1 = s.used ∧
      (s.current_index + 1 < s.used →
        t.current_index = s.current_index ∧ t.is_item = true ∧
        ∃ v, (contents s)[s.current_index + 1]? = some v ∧
          current t = .ok v) ∧
      (s.current_index + 1 = s.used →
        t.current_index = t.used ∧ t.is_item = false) := by
  have hlt : s.current_index < s.used := by simpa [is_item] using hit
  have hi1 : s.used ≤ s.capacity := hinv.1
  refine ⟨_, remove_current_spec s hinv.1 hit, ?_, ?_, ?_, ?_⟩
  · apply contents_take_out _ _ _ hlt rfl
    · intro j hj
      have h1 : ¬ (s.current_index ≤ j ∧ j < s.used - 1) := by omega
      show (if s.current_index ≤ j ∧ j < s.used - 1 then s.data (j + 1)
        else s.data j) = s.data j
      rw [if_neg h1]
    · intro j hj hj2
      have h1 : s.current_index ≤ j ∧ j < s.used - 1 := by omega
      show (if s.current_index ≤ j ∧ j < s.used - 1 then s.data (j + 1)
        else s.data j) = s.data (j + 1)
      rw [if_pos h1]
  · show s.used - 1 + 1 = s.used
    omega
  · intro hnl
    have h1 : s.current_index ≤ s.current_index ∧
        s.current_index < s.used - 1 := by omega
    have h2 : s.current_index < s.used - 1 := by omega
    refine ⟨rfl, by simp [is_item, h2], s.data (s.current_index + 1), ?_, ?_⟩
    · rw [contents_getElem?, if_pos hnl]
    · simp only [current, is_item, h2, decide_True, if_true]
      rw [rd_ok _ (by omega)]
      simp [h2]
  · intro hl
    have h2 : ¬ (s.current_index < s.used - 1) := by omega
    refine ⟨?_, by simp [is_item, h2]⟩
    show s.current_index = s.used - 1
    omega

/-- On `[10, 20, 30]` with the cursor on `20`, `remove_current` leaves
`[10, 30]` with current item `30`; on `[10, 20]` with the cursor on `20` it
leaves `[10]` without a current item. -/
theorem remove_current_post_witness :
    (∃ t : sequence Int, remove_current seq_10_20_30 = .ok t ∧
      contents t = [10, 30] ∧ current t = .ok 30) ∧
    (∃ t : sequence Int, remove_current seq_10_20 = .ok t ∧
      contents t = [10] ∧ t.is_item = false) := by
  constructor
  · obtain ⟨t, h1, h2, _, h4, _⟩ :=
      remove_current_post seq_10_20_30 ⟨by decide, by decide⟩ (by decide)
    obtain ⟨_, _, v, hv, hc⟩ := h4 (by decide)
    have h30 : (contents seq_10_20_30)[seq_10_20_30.current_index + 1]?
        = some 30 := by decide
    rw [h30] at hv
    cases hv
    exact ⟨t, h1, by rw [h2]; decide, hc⟩
  · obtain ⟨t, h1, h2, _, _, h5⟩ :=
      remove_current_post seq_10_20 ⟨by decide, by decide⟩ (by decide)
    exact ⟨t, h1, by rw [h2]; decide, (h5 (by decide)).2⟩

/-- C7. Postcondition of `advance` on a state with a current item at index
`i`: `current_index` becomes `i + 1` and nothing else changes; after the last
item there is no current item, otherwise the current item is the next
element.  On a one-element sequence `start` followed by `advance` leaves no
current item. -/
theorem advance_post (s : sequence α) (hinv : Inv s)
    (hit : s.is_item = true) :
    advance s = { s with current_index := s.current_index + 1 } ∧
      (s.current_index + 1 = s.used → (advance s).is_item = false) ∧
      (s.current_index + 1 < s.used →
        (advance s).is_item = true ∧
        ∃ v, (contents s)[s.current_index + 1]? = some v ∧
          current (advance s) = .ok v) ∧
      (∀ u : sequence α, u.used = 1 → (advance (start u)).is_item = false) := by
  have hi1 : s.used ≤ s.capacity := hinv.1
  have hadv : advance s = { s with current_index := s.current_index + 1 } := by
    simp [advance, hit]
  refine ⟨hadv, ?_, ?_, ?_⟩
  · intro hl
    rw [hadv]
    simp [is_item, hl]
  · intro hnl
    rw [hadv]
    refine ⟨by simp [is_item, hnl], s.data (s.current_index + 1), ?_, ?_⟩
    · rw [contents_getElem?, if_pos hnl]
    · simp only [current, is_item, hnl, decide_True, if_true]
      rw [rd_ok _ (by omega)]
  · intro u hu
    simp [advance, start, is_item, hu]

/-- On `[10, 20, 30]` with the cursor on `20`, `advance` moves the cursor to
`30`; on `[5]`, `start` then `advance` leaves no current item. -/
theorem advance_post_witness :
    (advance seq_10_20_30).current_index = 2 ∧
      current (advance seq_10_20_30) = .ok 30 ∧
      (advance (start seq_5)).is_item = false := by
  obtain ⟨h1, _, h3, h4⟩ :=
    advance_post seq_10_20_30 ⟨by decide, by decide⟩ (by decide)
  obtain ⟨_, v, hv, hc⟩ := h3 (by decide)
  have h30 : (contents seq_10_20_30)[seq_10_20_30.current_index + 1]?
      = some 30 := by decide
  rw [h30] at hv
  cases hv
  exact ⟨by rw [h1]; rfl, hc, h4 seq_5 rfl⟩

/-- C8. Postcondition of `start`, in every state: `current_index` becomes 0,
`capacity`, `used` and the array are unchanged; on a non-empty sequence there
is then a current item, and `current` returns `data[0]` (cell 0 exists as
`used ≤ capacity`); on an empty sequence there is no current item and
`current_index = used`. -/
theorem start_post (s : sequence α) :
    start s = { s with current_index := 0 } ∧
      (start s).current_index = 0 ∧
      (start s).capacity = s.capacity ∧
      (start s).used = s.used ∧
      (start s).data = s.data ∧
      contents (start s) = contents s ∧
      (0 < s.used →
        (start s).is_item = true ∧
        (s.used ≤ s.capacity → current (start s) = .ok (s.data 0))) ∧
      (s.used = 0 →
        (start s).is_item = false ∧
        (start s).current_index = (start s).used) := by
  refine ⟨rfl, rfl, rfl, rfl, rfl, rfl, ?_, ?_⟩
  · intro hpos
    refine ⟨by simp [start, is_item, hpos], ?_⟩
    intro hcap
    simp only [current, start, is_item, hpos, decide_True, if_true]
    rw [rd_ok _ (by omega)]
  · intro h0
    exact ⟨by simp [start, is_item, h0], by simp [start, h0]⟩

/-- On `[10, 20, 30]`, `start` makes `10` the current item. -/
theorem start_post_witness :
    (start seq_10_20_30).is_item = true ∧
      current (start seq_10_20_30) = .ok 10 := by
  obtain ⟨_, _, _, _, _, _, h, _⟩ := start_post seq_10_20_30
  obtain ⟨h1, h2⟩ := h (by decide)
  exact ⟨h1, h2 (by decide)⟩

/-- C9. `current` fails on its assertion exactly when `is_item` is false; when
`is_item` is true (in an array that holds the items, `used ≤ capacity`) it
returns the element of the logical contents at `current_index`.  `current`
yields a value only, the state is not touched. -/
theorem current_post (s : sequence α) :
    (current s = .error .assertion ↔ s.is_item = false) ∧
      (s.is_item = true → s.used ≤ s.capacity →
        ∃ v, (contents s)[s.current_index]? = some v ∧ current s = .ok v) := by
  constructor
  · constructor
    · intro h
      by_contra hit
      have hit2 : s.is_item = true := by simpa using hit
      simp only [current, hit2, if_true, rd] at h
      split_ifs at h
      all_goals cases h
    · intro hit
      simp [current, hit]
  · intro hit hcap
    have hlt : s.current_index < s.used := by simpa [is_item] using hit
    refine ⟨s.data s.current_index, ?_, ?_⟩
    · rw [contents_getElem?, if_pos hlt]
    · simp only [current, hit, if_true]
      rw [rd_ok _ (by omega)]

/-- On `[10, 20, 30]` with the cursor on `20`, `current` returns `20`; on a
fresh sequence it fails on the assertion. -/
theorem current_post_witness :
    current seq_10_20_30 = .ok 20 ∧
      current (construct 3 : sequence Int) = .error .assertion := by
  obtain ⟨_, h⟩ := current_post seq_10_20_30
  obtain ⟨v, hv, hc⟩ := h (by decide) (by decide)
  have h20 : (contents seq_10_20_30)[seq_10_20_30.current_index]? = some 20 := by
    decide
  rw [h20] at hv
  cases hv
  exact ⟨hc, (current_post (construct 3 : sequence Int)).1.2 (by decide)⟩

/-- C10. Sentinel law: `is_item` is true iff `current_index < used`; in every
state satisfying the invariant `is_item` is false iff `current_index = used`,
so that `current_index` never exceeds `used`. -/
theorem sentinel_law (s : sequence α) :
    (s.is_item = true ↔ s.current_index < s.used) ∧
      (Inv s → (s.is_item = false ↔ s.current_index = s.used)) ∧
      (Inv s → s.is_item = false → ¬ (s.used < s.current_index)) := by
  refine ⟨by simp [is_item], ?_, ?_⟩
  · intro hinv
    have hi2 : s.current_index ≤ s.used := hinv.2
    simp only [is_item, decide_eq_false_iff_not]
    omega
  · intro hinv _
    have hi2 : s.current_index ≤ s.used := hinv.2
    omega

/-- On a fresh sequence `is_item` is false and `current_index` equals `used`;
on `[10, 20, 30]` with the cursor on `20` it is true. -/
theorem sentinel_law_witness :
    ((construct 3 : sequence Int).is_item = false ↔
        (construct 3 : sequence Int).current_index
          = (construct 3 : sequence Int).used) ∧
      (seq_10_20_30.is_item = true ↔
        seq_10_20_30.current_index < seq_10_20_30.used) :=
  ⟨(sentinel_law (construct 3 : sequence Int)).2.1 (inv_construct 3),
    (sentinel_law seq_10_20_30).1⟩

/-! ## Further lemmas on the member functions -/

/-- Two states with the same number of items and the same cells below it hold
the same items. -/
theorem contents_congr (s t : sequence α) (hu : t.used = s.used)
    (h : ∀ j, j < s.used → t.data j = s.data j) :
    contents t = contents s := by
  apply List.ext_getElem?
  intro j
  rw [contents_getElem?, contents_getElem?, hu]
  by_cases hj : j < s.used
  · rw [if_pos hj, if_pos hj, h j hj]
  · rw [if_neg hj, if_neg hj]

/-- The state reached by `attach(0)` called 1431655765 times on a fresh
sequence of capacity 1431655765 is full, and neither `insert` nor `attach`
completes on it. -/
theorem full_state_stuck :
    ∃ t : sequence Int,
      attach_all (construct 1431655765) (List.replicate 1431655765 0) = .ok t ∧
      Reachable t ∧ t.used = t.capacity ∧
      (∀ (x : Int) (u : sequence Int), insert t x ≠ .ok u) ∧
      (∀ (x : Int) (u : sequence Int), attach t x ≠ .ok u) := by
  obtain ⟨t, ht, hr, hu, hcap⟩ := full_state_reached
  have hfull : t.used ≥ t.capacity := by rw [hu, hcap]
  have hov : INT_MAX < 3 * t.capacity / 2 + 1 := by
    rw [hcap]
    decide
  refine ⟨t, ht, hr, by rw [hu, hcap], ?_, ?_⟩
  · intro x u h
    rw [insert_overflow t x hfull hov] at h
    cases h
  · intro x u h
    rw [attach_overflow t x hfull hov] at h
    cases h

/-- Removing the current item erases it from the contents. -/
theorem remove_current_erase (s : sequence α) (hinv : Inv s)
    (hit : s.is_item = true) :
    ∃ t : sequence α, remove_current s = .ok t ∧
      contents t = (contents s).eraseIdx s.current_index ∧
      t.used + 1 = s.used ∧ t.capacity = s.capacity := by
  have hlt : s.current_index < s.used := by simpa [is_item] using hit
  refine ⟨_, remove_current_spec s hinv.1 hit, ?_, ?_, rfl⟩
  · apply contents_take_out _ _ _ hlt rfl
    · intro j hj
      have h1 : ¬ (s.current_index ≤ j ∧ j < s.used - 1) := by omega
      show (if s.current_index ≤ j ∧ j < s.used - 1 then s.data (j + 1)
        else s.data j) = s.data j
      rw [if_neg h1]
    · intro j hj hj2
      have h1 : s.current_index ≤ j ∧ j < s.used - 1 := by omega
      show (if s.current_index ≤ j ∧ j < s.used - 1 then s.data (j + 1)
        else s.data j) = s.data (j + 1)
      rw [if_pos h1]
  · show s.used - 1 + 1 = s.used
    omega

/-! ## The contract, continued -/

/-- C11. No-op cases: in every state without a current item `advance` and
`remove_current` leave the whole state as it is, and neither fails. -/
theorem noop_without_current (s : sequence α) (h : s.is_item = false) :
    advance s = s ∧ remove_current s = .ok s := by
  refine ⟨?_, remove_current_noop s h⟩
  simp [advance, h]

/-- On a fresh sequence of capacity 3, `advance` and `remove_current` change
nothing. -/
theorem noop_without_current_witness :
    seq_empty.is_item = false ∧
      advance seq_empty = seq_empty ∧
      remove_current seq_empty = .ok seq_empty :=
  ⟨by decide, noop_without_current seq_empty (by decide)⟩

/-- C16. `resize` clamps and preserves: in every state satisfying the
invariant, `resize(new_capacity)` completes with capacity
`max(new_capacity, used)`, and `used`, `current_index` and the first `used`
cells are unchanged. -/
theorem resize_post [Inhabited α] (s : sequence α) (new_capacity : Nat)
    (hinv : Inv s) :
    ∃ t : sequence α, resize s new_capacity = .ok t ∧
      t.capacity = max new_capacity s.used ∧
      t.used = s.used ∧
      t.current_index = s.current_index ∧
      (∀ j, j < s.used → t.data j = s.data j) ∧
      contents t = contents s := by
  have hd : ∀ j, j < s.used →
      (if j < s.used then s.data j else default) = s.data j := by
    intro j hj
    rw [if_pos hj]
  refine ⟨_, resize_ok s new_capacity hinv.1, ?_, rfl, rfl, hd, ?_⟩
  · show (if new_capacity < s.used then s.used else new_capacity)
      = max new_capacity s.used
    split_ifs <;> omega
  · exact contents_congr s _ rfl hd

/-- On `[10, 20, 30]` in four cells, `resize(1)` is clamped to capacity 3 and
`resize(9)` gives capacity 9; the items stay. -/
theorem resize_post_witness :
    (∃ t : sequence Int, resize seq_10_20_30 1 = .ok t ∧
      t.capacity = 3 ∧ contents t = [10, 20, 30]) ∧
    (∃ t : sequence Int, resize seq_10_20_30 9 = .ok t ∧
      t.capacity = 9 ∧ contents t = [10, 20, 30]) := by
  constructor
  · obtain ⟨t, h1, h2, _, _, _, h6⟩ :=
      resize_post seq_10_20_30 1 ⟨by decide, by decide⟩
    exact ⟨t, h1, by rw [h2]; decide, by rw [h6]; decide⟩
  · obtain ⟨t, h1, h2, _, _, _, h6⟩ :=
      resize_post seq_10_20_30 9 ⟨by decide, by decide⟩
    exact ⟨t, h1, by rw [h2]; decide, by rw [h6]; decide⟩

/-! ## Size, growth and round trip when the growth request fits in `int` -/

/-- Taking out the element that was put in at position `p` gives the list
back. -/
theorem eraseIdx_put_in (l : List α) (p : Nat) (x : α) (hp : p ≤ l.length) :
    (l.take p ++ [x] ++ l.drop p).eraseIdx p = l := by
  have hlen : (l.take p).length = p := List.length_take_of_le hp
  rw [List.append_assoc,
    List.eraseIdx_append_of_length_le (Nat.le_of_eq hlen), hlen, Nat.sub_self,
    List.singleton_append, List.eraseIdx_cons_zero, List.take_append_drop]

/-- The size law on the states in which the growth request fits in `int`:
`size` is the number of items, it is 0 after construction, `insert` and
`attach` raise it by one, `remove_current` lowers it by one when there is a
current item and keeps it otherwise, `start`, `advance` and `resize` keep
it. -/
theorem size_law [Inhabited α] (s : sequence α) (x : α) (n : Nat)
    (hinv : Inv s) :
    size s = (contents s).length ∧
      size (construct n : sequence α) = 0 ∧
      ((s.used < s.capacity ∨ 3 * s.capacity / 2 + 1 ≤ INT_MAX) →
        (∃ t : sequence α, insert s x = .ok t ∧ size t = size s + 1) ∧
        (∃ t : sequence α, attach s x = .ok t ∧ size t = size s + 1)) ∧
      (s.is_item = true →
        ∃ t : sequence α, remove_current s = .ok t ∧ size t + 1 = size s) ∧
      (s.is_item = false → remove_current s = .ok s) ∧
      size (start s) = size s ∧
      size (advance s) = size s ∧
      (∃ t : sequence α, resize s n = .ok t ∧ size t = size s) := by
  refine ⟨(contents_length s).symm, rfl, ?_, ?_, remove_current_noop s, rfl,
    ?_, ⟨_, resize_ok s n hinv.1, rfl⟩⟩
  · intro hfit
    obtain ⟨t, ht, h1, -⟩ := insert_spec s x hinv hfit
    obtain ⟨u, hu, h2, -⟩ := attach_spec s x hinv hfit
    exact ⟨⟨t, ht, h1⟩, ⟨u, hu, h2⟩⟩
  · intro hit
    obtain ⟨t, ht, -, h1, -⟩ := remove_current_erase s hinv hit
    exact ⟨t, ht, h1⟩
  · unfold advance
    split_ifs <;> rfl

/-- Growth on the states in which the request fits in `int`: on a full array
`insert` and `attach` leave the capacity `capacity + capacity / 2 + 1`, which
is larger than before and at least the new `used`; when there is room the
capacity stays. -/
theorem growth_post [Inhabited α] (s : sequence α) (x : α) (hinv : Inv s)
    (hfit : s.used < s.capacity ∨ 3 * s.capacity / 2 + 1 ≤ INT_MAX) :
    ∃ t u : sequence α, insert s x = .ok t ∧ attach s x = .ok u ∧
      t.capacity = u.capacity ∧
      (s.used = s.capacity →
        t.capacity = s.capacity + s.capacity / 2 + 1 ∧
        s.capacity < t.capacity ∧ t.used ≤ t.capacity ∧
        u.used ≤ u.capacity) ∧
      (s.used < s.capacity → t.capacity = s.capacity) := by
  have hi1 : s.used ≤ s.capacity := hinv.1
  obtain ⟨t, ht, h1, -, h3, -⟩ := insert_spec s x hinv hfit
  obtain ⟨u, hu, k1, -, k3, -⟩ := attach_spec s x hinv hfit
  refine ⟨t, u, ht, hu, by rw [h3, k3], ?_, ?_⟩
  · intro hfull
    have hge : s.used ≥ s.capacity := by omega
    rw [if_pos hge] at h3 k3
    rw [h1, k1, h3, k3]
    omega
  · intro hroom
    have hge : ¬ (s.used ≥ s.capacity) := by omega
    rw [h3, if_neg hge]

/-- Round trip on the states in which the growth request fits in `int`:
`insert` or `attach` followed by `remove_current` gives back the contents and
the size. -/
theorem add_then_remove [Inhabited α] (s : sequence α) (x : α) (hinv : Inv s)
    (hfit : s.used < s.capacity ∨ 3 * s.capacity / 2 + 1 ≤ INT_MAX) :
    (∃ t u : sequence α, insert s x = .ok t ∧ remove_current t = .ok u ∧
      contents u = contents s ∧ size u = size s) ∧
    (∃ t u : sequence α, attach s x = .ok t ∧ remove_current t = .ok u ∧
      contents u = contents s ∧ size u = size s) := by
  have hi1 : s.used ≤ s.capacity := hinv.1
  have hi2 : s.current_index ≤ s.used := hinv.2
  have hlt : s.is_item = true → s.current_index < s.used := by
    intro h
    simpa [is_item] using h
  constructor
  · obtain ⟨t, ht, hc, h1, h2, hit, -⟩ := insert_post s x hinv hfit
    obtain ⟨u, hu, hcu, h3, -⟩ := remove_current_erase t (inv_insert hinv ht) hit
    refine ⟨t, u, ht, hu, ?_, ?_⟩
    · rw [hcu, hc, h2]
      apply eraseIdx_put_in
      rw [contents_length]
      split_ifs <;> omega
    · show u.used = s.used
      omega
  · obtain ⟨t, ht, hc, h1, h2, hit, -⟩ := attach_post s x hinv hfit
    obtain ⟨u, hu, hcu, h3, -⟩ := remove_current_erase t (inv_attach hinv ht) hit
    refine ⟨t, u, ht, hu, ?_, ?_⟩
    · rw [hcu, hc, h2]
      apply eraseIdx_put_in
      rw [contents_length]
      split_ifs with h
      · have := hlt h
        omega
      · omega
    · show u.used = s.used
      omega

/-- From capacity 0 the capacities after the 1st, 2nd, 3rd, 5th and 8th
`attach` are 1, 2, 4, 7 and 11. -/
theorem growth_chain :
    (attach_all (construct 0 : sequence Int) [0]).map capacity = .ok 1 ∧
    (attach_all (construct 0 : sequence Int) [0, 0]).map capacity = .ok 2 ∧
    (attach_all (construct 0 : sequence Int) [0, 0, 0]).map capacity
      = .ok 4 ∧
    (attach_all (construct 0 : sequence Int) [0, 0, 0, 0, 0]).map capacity
      = .ok 7 ∧
    (attach_all (construct 0 : sequence Int)
      [0, 0, 0, 0, 0, 0, 0, 0]).map capacity = .ok 11 := by
  refine ⟨?_, ?_, ?_, ?_, ?_⟩ <;> rfl

/-! ## Traversal -/

/-- After `start` and `k` calls of `advance`, `k ≤ used`, the cursor is at
index `k` and nothing else has changed. -/
theorem advance_iterate (s : sequence α) :
    ∀ k, k ≤ s.used →
      Nat.iterate advance k (start s) = { s with current_index := k } := by
  intro k
  induction k with
  | zero =>
    intro _
    rfl
  | succ k ih =>
    intro hk
    rw [Function.iterate_succ_apply', ih (by omega)]
    have hlt : k < s.used := by omega
    simp [advance, is_item, hlt]

/-- The traversal loop, entered with the cursor at index `k` and allowed more
than `used - k` evaluations of its test, visits the items from index `k` on
and ends without a current item. -/
theorem traverse_loop_from (s : sequence α) (hcap : s.used ≤ s.capacity) :
    ∀ n k fuel, k + n = s.used → n < fuel →
      traverse_loop fuel { s with current_index := k }
        = some (.ok ((contents s).drop k,
            { s with current_index := s.used })) := by
  intro n
  induction n with
  | zero =>
    intro k fuel hk hf
    obtain ⟨f, rfl⟩ : ∃ f, fuel = f + 1 := ⟨fuel - 1, by omega⟩
    have hk2 : k = s.used := by omega
    subst hk2
    simp only [traverse_loop, is_item, Nat.lt_irrefl, decide_False,
      Bool.false_eq_true, if_false]
    rw [List.drop_of_length_le (by rw [contents_length])]
  | succ n ih =>
    intro k fuel hk hf
    obtain ⟨f, rfl⟩ : ∃ f, fuel = f + 1 := ⟨fuel - 1, by omega⟩
    have hlt : k < s.used := by omega
    have hadv : advance { s with current_index := k }
        = { s with current_index := k + 1 } := by
      simp [advance, is_item, hlt]
    have hcur : current { s with current_index := k } = .ok (s.data k) := by
      simp only [current, is_item, hlt, decide_True, if_true]
      rw [rd_ok _ (by omega)]
    have hdrop : (contents s).drop k = s.data k :: (contents s).drop (k + 1) := by
      apply List.ext_getElem?
      intro j
      cases j with
      | zero =>
        rw [List.getElem?_drop, contents_getElem?, if_pos (by omega)]
        simp
      | succ j =>
        rw [List.getElem?_drop, List.getElem?_cons_succ, List.getElem?_drop]
        congr 1
        omega
    simp only [traverse_loop, is_item, hlt, decide_True, if_true]
    simp only [hcur, hadv, ih (k + 1) f (by omega) (by omega)]
    rw [hdrop]

/-- The traversal loop allowed only `used - k` evaluations of its test has not
ended yet. -/
theorem traverse_loop_short (s : sequence α) (hcap : s.used ≤ s.capacity) :
    ∀ n k, k + n = s.used →
      traverse_loop n { s with current_index := k } = none := by
  intro n
  induction n with
  | zero =>
    intro k _
    rfl
  | succ n ih =>
    intro k hk
    have hlt : k < s.used := by omega
    have hadv : advance { s with current_index := k }
        = { s with current_index := k + 1 } := by
      simp [advance, is_item, hlt]
    have hcur : current { s with current_index := k } = .ok (s.data k) := by
      simp only [current, is_item, hlt, decide_True, if_true]
      rw [rd_ok _ (by omega)]
    simp only [traverse_loop, is_item, hlt, decide_True, if_true, hcur, hadv,
      ih (k + 1) (by omega)]

/-! ## The contract: size, growth, safety, traversal, round trip -/

/-- C12, on the full array of 1431655765 items: `size` is 1431655765 and no
call of `insert` or `attach` completes with `size` raised by one, the growth
request `int(1.5 * capacity) + 1` being `INT_MAX + 1`. -/
theorem size_law_on_full_large_array :
    ∃ t : sequence Int,
      attach_all (construct 1431655765) (List.replicate 1431655765 0) = .ok t ∧
      Reachable t ∧ size t = (contents t).length ∧
      ¬ ∃ u : sequence Int,
        (insert t 7 = .ok u ∨ attach t 7 = .ok u) ∧ size u = size t + 1 := by
  obtain ⟨t, ht, hr, -, hi, ha⟩ := full_state_stuck
  refine ⟨t, ht, hr, (contents_length t).symm, ?_⟩
  rintro ⟨u, h | h, -⟩
  · exact hi 7 u h
  · exact ha 7 u h

/-- C13, on the full array of 1431655765 items (`used = capacity`): neither
`insert` nor `attach` completes with a larger capacity. -/
theorem growth_on_full_large_array :
    ∃ t : sequence Int,
      attach_all (construct 1431655765) (List.replicate 1431655765 0) = .ok t ∧
      Reachable t ∧ t.used = t.capacity ∧
      ¬ ∃ u : sequence Int,
        (insert t 7 = .ok u ∨ attach t 7 = .ok u) ∧
          t.capacity < u.capacity ∧ u.used ≤ u.capacity := by
  obtain ⟨t, ht, hr, hfull, hi, ha⟩ := full_state_stuck
  refine ⟨t, ht, hr, hfull, ?_⟩
  rintro ⟨u, h | h, -⟩
  · exact hi 7 u h
  · exact ha 7 u h

/-- C17, on the full array of 1431655765 items (`used = capacity`): the
expression `int(1.5 * capacity) + 1` has no value in `int`, and neither
`insert` nor `attach` completes with capacity
`capacity + capacity / 2 + 1`. -/
theorem growth_amount_on_full_large_array :
    ∃ t : sequence Int,
      attach_all (construct 1431655765) (List.replicate 1431655765 0) = .ok t ∧
      Reachable t ∧ t.used = t.capacity ∧
      grow_request t.capacity = .error .intOverflow ∧
      ¬ ∃ u : sequence Int,
        (insert t 7 = .ok u ∨ attach t 7 = .ok u) ∧
          u.capacity = t.capacity + t.capacity / 2 + 1 := by
  obtain ⟨t, ht, hr, hu, hcap⟩ := full_state_reached
  have hfull : t.used ≥ t.capacity := by rw [hu, hcap]
  have hov : INT_MAX < 3 * t.capacity / 2 + 1 := by
    rw [hcap]
    decide
  refine ⟨t, ht, hr, by rw [hu, hcap], grow_request_overflow hov, ?_⟩
  rintro ⟨u, h | h, -⟩
  · rw [insert_overflow t 7 hfull hov] at h
    cases h
  · rw [attach_overflow t 7 hfull hov] at h
    cases h

/-- C18. Index safety: in every state satisfying the invariant no subscript
evaluated by `insert`, `attach`, `remove_current` or (with a current item)
`current` lies outside the array in use; the growth step, when it completes,
leaves `used < capacity` before the shift loop writes `data[used]`; with a
current item `current_index + 1 ≤ used` and `used ≥ 1`, so that `used - 1`
does not wrap. -/
theorem index_safety [Inhabited α] (s : sequence α) (x : α) (hinv : Inv s) :
    insert s x ≠ .error .outOfBounds ∧
      attach s x ≠ .error .outOfBounds ∧
      remove_current s ≠ .error .outOfBounds ∧
      (s.is_item = true → current s ≠ .error .outOfBounds) ∧
      (∀ g : sequence α,
        (if s.used ≥ s.capacity then
            (do let n ← grow_request s.capacity; s.resize n)
          else pure s) = Except.ok g →
        g.used < g.capacity) ∧
      (s.is_item = true → s.current_index + 1 ≤ s.used ∧ 1 ≤ s.used) := by
  have hi1 : s.used ≤ s.capacity := hinv.1
  have hlt : s.is_item = true → s.current_index < s.used := by
    intro h
    simpa [is_item] using h
  refine ⟨?_, ?_, ?_, ?_, ?_, ?_⟩
  · intro h
    by_cases hfit : s.used < s.capacity ∨ 3 * s.capacity / 2 + 1 ≤ INT_MAX
    · obtain ⟨t, ht, -⟩ := insert_spec s x hinv hfit
      rw [ht] at h
      cases h
    · rw [insert_overflow s x (by omega) (by omega)] at h
      cases h
  · intro h
    by_cases hfit : s.used < s.capacity ∨ 3 * s.capacity / 2 + 1 ≤ INT_MAX
    · obtain ⟨t, ht, -⟩ := attach_spec s x hinv hfit
      rw [ht] at h
      cases h
    · rw [attach_overflow s x (by omega) (by omega)] at h
      cases h
  · intro h
    by_cases hit : s.is_item = true
    · rw [remove_current_spec s hi1 hit] at h
      cases h
    · rw [remove_current_noop s (by simpa using hit)] at h
      cases h
  · intro hit h
    rw [current_ok s hit hi1] at h
    cases h
  · intro g hg
    by_cases hfit : s.used < s.capacity ∨ 3 * s.capacity / 2 + 1 ≤ INT_MAX
    · obtain ⟨t, ht, hu, -, hcap, -⟩ := grow_ok s hi1 hfit
      rw [ht] at hg
      cases hg
      omega
    · rw [grow_overflow s (by omega) (by omega)] at hg
      cases hg
  · intro hit
    have := hlt hit
    omega

/-- On `[10, 20, 30]` with the cursor on `20`, in four cells, no call leaves
the array. -/
theorem index_safety_witness :
    insert seq_10_20_30 7 ≠ .error .outOfBounds ∧
      attach seq_10_20_30 7 ≠ .error .outOfBounds ∧
      remove_current seq_10_20_30 ≠ .error .outOfBounds ∧
      current seq_10_20_30 ≠ .error .outOfBounds := by
  obtain ⟨h1, h2, h3, h4, -⟩ :=
    index_safety seq_10_20_30 7 ⟨by decide, by decide⟩
  exact ⟨h1, h2, h3, h4 (by decide)⟩

/-- C19. Traversal: in every state satisfying the invariant, with contents
`L` of length `n`, after `start` and `k` calls of `advance` there is for
`k < n` a current item, `L[k]`, and for `k = n` none; the loop
`start(); while (is_item()) { current(); advance(); }` ends, having visited
exactly the items of `L` in order, one per iteration, `size()` iterations in
all (`size() + 1` evaluations of its test are needed and suffice), and leaves
the contents as they were. -/
theorem traversal (s : sequence α) (hinv : Inv s) :
    (∀ k, k < s.used →
      (Nat.iterate advance k (start s)).is_item = true ∧
      ∃ v, (contents s)[k]? = some v ∧
        current (Nat.iterate advance k (start s)) = .ok v) ∧
    (Nat.iterate advance s.used (start s)).is_item = false ∧
    (∀ fuel, s.used < fuel →
      ∃ t : sequence α,
        traverse_loop fuel (start s) = some (.ok (contents s, t)) ∧
        contents t = contents s ∧ t.is_item = false) ∧
    traverse_loop s.used (start s) = none ∧
    (contents s).length = size s := by
  have hi1 : s.used ≤ s.capacity := hinv.1
  refine ⟨?_, ?_, ?_, ?_, contents_length s⟩
  · intro k hk
    rw [advance_iterate s k (by omega)]
    refine ⟨by simp [is_item, hk], s.data k, ?_, ?_⟩
    · rw [contents_getElem?, if_pos hk]
    · simp only [current, is_item, hk, decide_True, if_true]
      rw [rd_ok _ (by omega)]
  · rw [advance_iterate s s.used (Nat.le_refl _)]
    simp [is_item]
  · intro fuel hf
    refine ⟨{ s with current_index := s.used }, ?_, rfl, by simp [is_item]⟩
    have h := traverse_loop_from s hi1 s.used 0 fuel (by omega) hf
    rw [List.drop_zero] at h
    exact h
  · exact traverse_loop_short s hi1 s.used 0 (by omega)

/-- On `[10, 20, 30]` the loop visits `10`, `20`, `30`; after `start` and two
calls of `advance` the current item is `30`, after three there is none. -/
theorem traversal_witness :
    (∃ t : sequence Int,
      traverse_loop 4 (start seq_10_20_30) = some (.ok ([10, 20, 30], t)) ∧
      contents t = [10, 20, 30]) ∧
    current (Nat.iterate advance 2 (start seq_10_20_30)) = .ok 30 ∧
    (Nat.iterate advance 3 (start seq_10_20_30)).is_item = false := by
  obtain ⟨h1, h2, h3, -⟩ := traversal seq_10_20_30 ⟨by decide, by decide⟩
  obtain ⟨t, ht, hc, -⟩ := h3 4 (by decide)
  obtain ⟨-, v, hv, hcur⟩ := h1 2 (by decide)
  have h30 : (contents seq_10_20_30)[2]? = some 30 := by decide
  rw [h30] at hv
  cases hv
  have hL : contents seq_10_20_30 = [10, 20, 30] := by decide
  rw [hL] at ht hc
  exact ⟨⟨t, ht, hc⟩, hcur, h2⟩

/-- C20, on the full array of 1431655765 items: neither `insert` nor `attach`
completes, so no `remove_current` follows that gives the contents and the
size back. -/
theorem add_then_remove_on_full_large_array :
    ∃ t : sequence Int,
      attach_all (construct 1431655765) (List.replicate 1431655765 0) = .ok t ∧
      Reachable t ∧
      ¬ ∃ u v : sequence Int,
        (insert t 7 = .ok u ∨ attach t 7 = .ok u) ∧
          remove_current u = .ok v ∧
          contents v = contents t ∧ size v = size t := by
  obtain ⟨t, ht, hr, -, hi, ha⟩ := full_state_stuck
  refine ⟨t, ht, hr, ?_⟩
  rintro ⟨u, v, h | h, -⟩
  · exact hi 7 u h
  · exact ha 7 u h

/-! ## Objects in the free store -/

theorem view_alloc_other (st : Store α) (o : object) (cells : Nat → α)
    (h : o.data < st.next) : o.view (st.alloc cells).2 = o.view st := by
  have hne : o.data ≠ st.next := by omega
  simp [object.view, Store.alloc, Function.update, hne]

theorem view_free_other (st : Store α) (o : object) (p : Nat)
    (h : o.data ≠ p) : o.view (st.free p) = o.view st := by
  simp [object.view, Store.free, Function.update, h]

theorem view_write_other (st : Store α) (o : object) (p : Nat)
    (cells : Nat → α) (h : o.data ≠ p) :
    o.view (st.write p cells) = o.view st := by
  simp [object.view, Store.write, Function.update, h]

theorem view_alloc_new (st : Store α) (s : sequence α) :
    (object.of (st.alloc s.data).1 s).view (st.alloc s.data).2 = some s := by
  simp [object.view, object.of, Store.alloc]

theorem view_alloc_free_new (st : Store α) (s : sequence α) (p : Nat)
    (h : p < st.next) :
    (object.of (st.alloc s.data).1 s).view ((st.alloc s.data).2.free p)
      = some s := by
  have hne : st.next ≠ p := by omega
  simp [object.view, object.of, Store.alloc, Store.free, Function.update, hne]

/-- A member function called on `b` leaves every other live object `a` as it
is, and `b` stays apart from `a`. -/
theorem apply_at_frame [Inhabited α] (op : Op α) (st st' : Store α)
    (a b b' : object) (hne : a.data ≠ b.data) (ha : a.data < st.next)
    (hb : b.data < st.next) (h : apply_at op st b = .ok (st', b')) :
    a.view st' = a.view st ∧ a.data ≠ b'.data ∧ a.data < st'.next ∧
      b'.data < st'.next := by
  unfold apply_at at h
  cases hv : b.view st with
  | none =>
    rw [hv] at h
    cases h
  | some s =>
    rw [hv] at h
    simp only at h
    cases hr : op.run s with
    | error e =>
      rw [hr] at h
      cases h
    | ok s' =>
      rw [hr] at h
      simp only at h
      by_cases hre : op.reallocates s = true
      · rw [if_pos hre] at h
        cases h
        refine ⟨?_, ?_, ?_, ?_⟩
        · rw [view_free_other _ _ _ hne, view_alloc_other _ _ _ ha]
        · show a.data ≠ st.next
          omega
        · show a.data < st.next + 1
          omega
        · show st.next < st.next + 1
          omega
      · rw [if_neg hre] at h
        cases h
        exact ⟨view_write_other _ _ _ _ hne, hne, ha, hb⟩

/-- Any number of member functions called on `b` leave every other live
object `a` as it is. -/
theorem apply_all_at_frame [Inhabited α] (ops : List (Op α)) :
    ∀ (st st' : Store α) (a b b' : object), a.data ≠ b.data →
      a.data < st.next → b.data < st.next →
      apply_all_at ops st b = .ok (st', b') →
      a.view st' = a.view st := by
  induction ops with
  | nil =>
    intro st st' a b b' _ _ _ h
    simp only [apply_all_at] at h
    cases h
    rfl
  | cons op ops ih =>
    intro st st' a b b' hne ha hb h
    simp only [apply_all_at] at h
    cases hr : apply_at op st b with
    | error e =>
      rw [hr] at h
      cases h
    | ok r =>
      rw [hr] at h
      obtain ⟨h1, h2, h3, h4⟩ := apply_at_frame op st r.1 a b r.2 hne ha hb hr
      rw [ih r.1 st' a r.2 b' h2 h3 h4 h, h1]

/-- The copy constructor in the store: the copy lives at a new address, the
source is as it was, and the copy is the state that `copy_construct`
computes. -/
theorem copy_construct_at_spec [Inhabited α] (st st' : Store α)
    (a b : object) (ha : a.data < st.next)
    (h : copy_construct_at st a = .ok (st', b)) :
    a.data ≠ b.data ∧ a.data < st'.next ∧ b.data < st'.next ∧
      a.view st' = a.view st ∧
      ∃ s s' : sequence α, a.view st = some s ∧ copy_construct s = .ok s' ∧
        b.view st' = some s' := by
  unfold copy_construct_at at h
  cases hv : a.view st with
  | none =>
    rw [hv] at h
    cases h
  | some s =>
    rw [hv] at h
    simp only at h
    cases hr : copy_construct s with
    | error e =>
      rw [hr] at h
      cases h
    | ok s' =>
      rw [hr] at h
      cases h
      refine ⟨?_, ?_, ?_, ?_, s, s', rfl, hr, view_alloc_new st s'⟩
      · show a.data ≠ st.next
        omega
      · show a.data < st.next + 1
        omega
      · show st.next < st.next + 1
        omega
      · rw [view_alloc_other _ _ _ ha, hv]

/-- The assignment `this = source` between two objects in the store: the
target then lives at a new address, the source is as it was, and the target
is the state that `assign` computes. -/
theorem assign_at_spec [Inhabited α] (st st' : Store α)
    (this a b : object) (hne : a.data ≠ this.data) (ha : a.data < st.next)
    (hthis : this.data < st.next)
    (h : assign_at st this a false = .ok (st', b)) :
    a.data ≠ b.data ∧ a.data < st'.next ∧ b.data < st'.next ∧
      a.view st' = a.view st ∧
      ∃ t s s' : sequence α, this.view st = some t ∧ a.view st = some s ∧
        assign t s false = .ok s' ∧ b.view st' = some s' := by
  unfold assign_at at h
  cases hvt : this.view st with
  | none =>
    rw [hvt] at h
    cases h
  | some t =>
    cases hv : a.view st with
    | none =>
      rw [hvt, hv] at h
      cases h
    | some s =>
      rw [hvt, hv] at h
      simp only at h
      cases hr : assign t s false with
      | error e =>
        rw [hr] at h
        cases h
      | ok s' =>
        rw [hr] at h
        simp only [Bool.false_eq_true, if_false] at h
        cases h
        refine ⟨?_, ?_, ?_, ?_, t, s, s', rfl, rfl, hr,
          view_alloc_free_new st s' this.data hthis⟩
        · show a.data ≠ st.next
          omega
        · show a.data < st.next + 1
          omega
        · show st.next < st.next + 1
          omega
        · rw [view_free_other _ _ _ hne, view_alloc_other _ _ _ ha, hv]

/-- A state that reproduces another has the same contents and answers
`size`, `is_item` and `current` alike. -/
theorem agrees_queries {a b : sequence α} (h : agrees a b) :
    contents b = contents a ∧ size b = size a ∧ is_item b = is_item a ∧
      current b = current a := by
  obtain ⟨h1, h2, h3, h4⟩ := h
  refine ⟨contents_congr a b h2 h4, h2, by simp [is_item, h2, h3], ?_⟩
  simp only [current, is_item, h1, h2, h3, rd]
  by_cases hlt : a.current_index < a.used
  · simp [hlt, h4 _ hlt]
  · simp [hlt]

theorem copy_construct_agrees [Inhabited α] (a : sequence α)
    (hcap : a.used ≤ a.capacity) :
    ∃ b : sequence α, copy_construct a = .ok b ∧ agrees a b :=
  ⟨_, copy_construct_ok a hcap, rfl, rfl, rfl, fun _ hj => if_pos hj⟩

theorem assign_agrees [Inhabited α] (this a : sequence α)
    (hcap : a.used ≤ a.capacity) :
    ∃ b : sequence α, assign this a false = .ok b ∧ agrees a b :=
  ⟨_, assign_ok this a hcap, rfl, rfl, rfl, fun _ hj => if_pos hj⟩

/-! ## The contract: copies -/

/-- C14. Copy construction and assignment reproduce the source: for every
source `a` (whose items lie in its array), the copy constructor and
`b = a` give a state with the same capacity, `used`, `current_index` and
first `used` cells, hence the same contents, `size()`, `is_item()` and
`current()`; in the store the source object is afterwards as it was;
self-assignment changes nothing. -/
theorem copy_reproduces [Inhabited α] (a : sequence α)
    (hcap : a.used ≤ a.capacity) :
    (∃ b : sequence α, copy_construct a = .ok b ∧ agrees a b ∧
      contents b = contents a ∧ size b = size a ∧ is_item b = is_item a ∧
      current b = current a) ∧
    (∀ this : sequence α, ∃ b : sequence α,
      assign this a false = .ok b ∧ agrees a b ∧
      contents b = contents a ∧ size b = size a ∧ is_item b = is_item a ∧
      current b = current a) ∧
    assign a a true = .ok a ∧
    (∀ (st : Store α) (o : object), o.view st = some a → o.data < st.next →
      ∃ (st' : Store α) (b : object) (s' : sequence α),
        copy_construct_at st o = .ok (st', b) ∧ o.view st' = some a ∧
        b.view st' = some s' ∧ agrees a s') ∧
    (∀ (st : Store α) (this o : object) (t : sequence α),
      this.view st = some t → o.view st = some a →
      o.data ≠ this.data → o.data < st.next → this.data < st.next →
      ∃ (st' : Store α) (b : object) (s' : sequence α),
        assign_at st this o false = .ok (st', b) ∧ o.view st' = some a ∧
        b.view st' = some s' ∧ agrees a s') ∧
    (∀ (st : Store α) (o : object), o.view st = some a →
      assign_at st o o true = .ok (st, o) ∧ o.view st = some a) := by
  refine ⟨?_, ?_, rfl, ?_, ?_, ?_⟩
  · obtain ⟨b, hb, hag⟩ := copy_construct_agrees a hcap
    exact ⟨b, hb, hag, agrees_queries hag⟩
  · intro this
    obtain ⟨b, hb, hag⟩ := assign_agrees this a hcap
    exact ⟨b, hb, hag, agrees_queries hag⟩
  · intro st o hv hlt
    obtain ⟨b, hb, hag⟩ := copy_construct_agrees a hcap
    have h : copy_construct_at st o
        = .ok ((st.alloc b.data).2, object.of (st.alloc b.data).1 b) := by
      simp only [copy_construct_at, hv, hb]
    obtain ⟨-, -, -, h4, -⟩ := copy_construct_at_spec st _ o _ hlt h
    exact ⟨_, _, b, h, by rw [h4, hv], view_alloc_new st b, hag⟩
  · intro st this o t hvt hv hne hlt hlt2
    obtain ⟨b, hb, hag⟩ := assign_agrees t a hcap
    have h : assign_at st this o false
        = .ok (((st.alloc b.data).2).free this.data,
            object.of (st.alloc b.data).1 b) := by
      simp only [assign_at, hvt, hv, hb, Bool.false_eq_true, if_false]
    obtain ⟨-, -, -, h4, -⟩ := assign_at_spec st _ this o _ hne hlt hlt2 h
    exact ⟨_, _, b, h, by rw [h4, hv],
      view_alloc_free_new st b this.data hlt2, hag⟩
  · intro st o hv
    refine ⟨?_, hv⟩
    simp only [assign_at, hv, assign, if_true, pure, Except.pure]

/-- Copying `[10, 20, 30]` with the cursor on `20` gives `[10, 20, 30]` with
current item `20`. -/
theorem copy_reproduces_witness :
    ∃ b : sequence Int, copy_construct seq_10_20_30 = .ok b ∧
      contents b = [10, 20, 30] ∧ current b = .ok 20 := by
  obtain ⟨⟨b, hb, -, hc, -, -, hcur⟩, -⟩ :=
    copy_reproduces seq_10_20_30 (by decide)
  refine ⟨b, hb, ?_, ?_⟩
  · rw [hc]
    decide
  · rw [hcur]
    rfl

/-- C15. Copy independence: after `b` has been made from `a` by copy
construction, or by the assignment `b = a` to another object, member
functions called on `b`, however many, leave the state of `a` (its `size()`
and every element) as it is, and member functions called on `a` leave the
state of `b` as it is. -/
theorem copy_independence [Inhabited α] (st : Store α) (a : object)
    (ha : a.data < st.next) :
    (∀ (st1 : Store α) (b : object),
      copy_construct_at st a = .ok (st1, b) →
      a.view st1 = a.view st ∧
      (∀ (ops : List (Op α)) (st2 : Store α) (b2 : object),
        apply_all_at ops st1 b = .ok (st2, b2) →
        a.view st2 = a.view st1) ∧
      (∀ (ops : List (Op α)) (st2 : Store α) (a2 : object),
        apply_all_at ops st1 a = .ok (st2, a2) →
        b.view st2 = b.view st1)) ∧
    (∀ (this : object) (st1 : Store α) (b : object),
      a.data ≠ this.data → this.data < st.next →
      assign_at st this a false = .ok (st1, b) →
      a.view st1 = a.view st ∧
      (∀ (ops : List (Op α)) (st2 : Store α) (b2 : object),
        apply_all_at ops st1 b = .ok (st2, b2) →
        a.view st2 = a.view st1) ∧
      (∀ (ops : List (Op α)) (st2 : Store α) (a2 : object),
        apply_all_at ops st1 a = .ok (st2, a2) →
        b.view st2 = b.view st1)) := by
  constructor
  · intro st1 b h
    obtain ⟨h1, h2, h3, h4, -⟩ := copy_construct_at_spec st st1 a b ha h
    refine ⟨h4, ?_, ?_⟩
    · intro ops st2 b2 hops
      exact apply_all_at_frame ops st1 st2 a b b2 h1 h2 h3 hops
    · intro ops st2 a2 hops
      exact apply_all_at_frame ops st1 st2 b a a2 (Ne.symm h1) h3 h2 hops
  · intro this st1 b hne hthis h
    obtain ⟨h1, h2, h3, h4, -⟩ := assign_at_spec st st1 this a b hne ha hthis h
    refine ⟨h4, ?_, ?_⟩
    · intro ops st2 b2 hops
      exact apply_all_at_frame ops st1 st2 a b b2 h1 h2 h3 hops
    · intro ops st2 a2 hops
      exact apply_all_at_frame ops st1 st2 b a a2 (Ne.symm h1) h3 h2 hops

/-- After copying `[10, 20, 30]`, `insert(7)`, `start()` and
`remove_current()` on the copy leave the original in its state, and
`attach(8)` on the original leaves the copy in its state. -/
theorem copy_independence_witness :
    ∃ r1 r2 r3 : Store Int × object,
      copy_construct_at store_0 object_0 = .ok r1 ∧
      apply_all_at [Op.insert 7, Op.start, Op.remove_current] r1.1 r1.2
        = .ok r2 ∧
      object_0.view r2.1 = object_0.view store_0 ∧
      apply_all_at [Op.attach 8] r1.1 object_0 = .ok r3 ∧
      r1.2.view r3.1 = r1.2.view r1.1 := by
  have h0 : object_0.data < store_0.next := by decide
  have hrun : (match copy_construct_at store_0 object_0 with
      | .ok r1 =>
        (match apply_all_at [Op.insert 7, Op.start, Op.remove_current]
            r1.1 r1.2,
          apply_all_at [Op.attach 8] r1.1 object_0 with
        | .ok _, .ok _ => true
        | _, _ => false)
      | .error _ => false) = true := by decide
  obtain ⟨hc, -⟩ := copy_independence store_0 object_0 h0
  cases h1 : copy_construct_at store_0 object_0 with
  | error e =>
    rw [h1] at hrun
    cases hrun
  | ok r1 =>
    rw [h1] at hrun
    simp only at hrun
    cases h2 : apply_all_at [Op.insert 7, Op.start, Op.remove_current]
        r1.1 r1.2 with
    | error e =>
      rw [h2] at hrun
      cases hrun
    | ok r2 =>
      cases h3 : apply_all_at [Op.attach 8] r1.1 object_0 with
      | error e =>
        rw [h2, h3] at hrun
        cases hrun
      | ok r3 =>
        obtain ⟨k1, k2, k3⟩ := hc r1.1 r1.2 h1
        exact ⟨r1, r2, r3, rfl, h2, by rw [k2 _ r2.1 r2.2 h2, k1], h3,
          k3 _ r3.1 r3.2 h3⟩

end sequence

end CS3358_SP2025
